import Mathlib

/-!
Verification of the `vec-list` repository: a doubly-linked list whose nodes
live in a growable arena (`Vec`), with slot reuse through a free list.

The repository contains two overlapping draft iterations of the design:

* the "old" draft (`src/lib.rs`, `src/node.rs`, `src/drain.rs`, `src/iter.rs`),
  which stores raw node pointers; we embed it with slot indices standing for
  the pointers (each `*mut Node<T>` is the index of that node in the backing
  `Vec`, which is exactly how the nodes are laid out);
* the "new" draft (`src/nodes.rs`, `src/iters/*`, `src/views/*`,
  `src/raw_vec.rs`, `src/tests.rs`), which stores `Option<usize>` slot
  indices directly.  The new draft's `VecList` core type itself (its field
  layout and the helpers `new_node`, `remove_node`, `get_index`) is not part
  of the sources; only its callers are.  Those missing helpers are modelled
  from the spec, and each such definition is marked `Modelled from the spec:`.

Machine integers (`usize`) are modelled as `Nat`; every subtraction that the
Rust code performs on a `usize` is either proved not to underflow in the
states considered, modelled with checked arithmetic (`Option`), or noted in a
comment at the definition.
-/

/-- One arena slot: a stored value plus optional predecessor / successor slot
indices.  This is the shape of both `Node` types of the repository
(`src/node.rs` with `*mut Node<T>` links, embedded as slot indices, and
`src/nodes.rs` with `Option<usize>` links). -/
structure Node (T : Type) where
  prev : Option Nat
  next : Option Nat
  value : T
deriving Repr, DecidableEq

/-- Bounds of a Rust `RangeBounds<usize>` argument: `Included`, `Excluded` or
`Unbounded`. -/
inductive RBound where
  | included (n : Nat)
  | excluded (n : Nat)
  | unbounded
deriving Repr, DecidableEq

/-- A range argument: a start bound and an end bound. -/
structure RangeB where
  start : RBound
  stop : RBound
deriving Repr, DecidableEq

/-- Fuel-bounded walk along a step function (`next` or `prev` links):
`walkE step i k` takes exactly `k` steps from slot `i`, failing like the
source's `.expect(...)` when a link is absent. -/
def walkE (step : Nat → Option Nat) : Nat → Nat → Except String Nat
  | i, 0 => .ok i
  | i, k + 1 =>
    match step i with
    | some j => walkE step j k
    | none => .error "link was expected but was not found"

/-- Decidable equality for `Except` results (panic message or value), in a
form the kernel can evaluate under `decide`. -/
instance exceptDecEq {E A : Type} [DecidableEq E] [DecidableEq A] :
    DecidableEq (Except E A)
  | .error a, .error b =>
    if h : a = b then isTrue (by rw [h]) else
      isFalse fun hc => h (Except.error.inj hc)
  | .error _, .ok _ => isFalse fun hc => Except.noConfusion hc
  | .ok _, .error _ => isFalse fun hc => Except.noConfusion hc
  | .ok a, .ok b =>
    if h : a = b then isTrue (by rw [h]) else
      isFalse fun hc => h (Except.ok.inj hc)

/-- A `Chain'` decidability instance that the kernel can evaluate (the
library one is built by tactics and does not reduce under `decide`). -/
instance chainDecidable {R : Nat → Nat → Prop} [DecidableRel R] :
    ∀ l : List Nat, Decidable (List.Chain' R l)
  | [] => isTrue List.chain'_nil
  | [a] => isTrue (List.chain'_singleton a)
  | a :: b :: t =>
    haveI : Decidable (List.Chain' R (b :: t)) := chainDecidable (b :: t)
    decidable_of_iff (R a b ∧ List.Chain' R (b :: t)) (List.chain'_cons).symm

namespace OldDraft

/-- The old draft's list state (`VecList<T>` of `src/lib.rs`):
`head`/`tail`/`cache` are `Option<*mut Node<T>>`, embedded as slot indices
into the backing `Vec<Node<T>>`.  The backing `Vec` is embedded as a total
map `nodes` together with its length `node_count` (number of slots ever
allocated) and its capacity `cap`. -/
structure VecList (T : Type) where
  head : Option Nat
  tail : Option Nat
  len : Nat
  cache : Option Nat
  nodes : Nat → Node T
  node_count : Nat
  cap : Nat

namespace VecList

variable {T : Type}

/-- Replace the node stored in slot `i`. -/
def setNode (st : VecList T) (i : Nat) (nd : Node T) : VecList T :=
  { st with nodes := Function.update st.nodes i nd }

/-- Write the `next` link of slot `i`. -/
def setNext (st : VecList T) (i : Nat) (nx : Option Nat) : VecList T :=
  st.setNode i { st.nodes i with next := nx }

/-- Write the `prev` link of slot `i`. -/
def setPrev (st : VecList T) (i : Nat) (pv : Option Nat) : VecList T :=
  st.setNode i { st.nodes i with prev := pv }

/-- Write the value of slot `i`. -/
def setValue (st : VecList T) (i : Nat) (v : T) : VecList T :=
  st.setNode i { st.nodes i with value := v }

/-- Source `Node::append` (src/node.rs): appends `nxt` as the node after `i`.
If `nxt` exists its `prev` is pointed at `i`; then `i`'s `next` is set to
`nxt`.  The `debug_assert!` memory-leak checks of the source are compiled out
in release builds and are not part of the state transition. -/
def nodeAppend (st : VecList T) (i : Nat) (nxt : Option Nat) : VecList T :=
  let st1 :=
    match nxt with
    | some j => st.setPrev j (some i)
    | none => st
  st1.setNext i nxt

/-- Source `Node::append_to` (src/node.rs): appends `i` as the node after `pv`. -/
def nodeAppendTo (st : VecList T) (i : Nat) (pv : Option Nat) : VecList T :=
  let st1 :=
    match pv with
    | some j => st.setNext j (some i)
    | none => st
  st1.setPrev i pv

/-- Source `Node::pop_next` (src/node.rs): takes the `next` link of slot `i`. -/
def popNext (st : VecList T) (i : Nat) : Option Nat × VecList T :=
  ((st.nodes i).next, st.setNext i none)

/-- Source `Node::pop_prev` (src/node.rs): takes the `prev` link of slot `i`. -/
def popPrev (st : VecList T) (i : Nat) : Option Nat × VecList T :=
  ((st.nodes i).prev, st.setPrev i none)

/-- Source `Node::len` (src/node.rs): number of nodes in the chain reachable through
`next` links, starting at `i` (inclusive).  The source recurses without a
bound; we bound the recursion by fuel, which suffices for any acyclic chain
of at most `fuel` nodes. -/
def nodeLen (st : VecList T) : Nat → Nat → Nat
  | _, 0 => 0
  | i, fuel + 1 =>
    1 + (match (st.nodes i).next with
         | some j => st.nodeLen j fuel
         | none => 0)

/-- Source `VecList::cached` (src/lib.rs:40-46): number of cached nodes ready for
reuse, counted by walking the cache chain. -/
def cached (st : VecList T) : Nat :=
  match st.cache with
  | some c => st.nodeLen c st.node_count
  | none => 0

/-- Amortized growth of the backing `Vec` on `push` (Rust's `RawVec`
doubling strategy for small element types; the exact constants never decide a
claim below). -/
def vecGrow (c : Nat) : Nat :=
  if c = 0 then 4 else 2 * c

/-- Source `VecList::new_node` (src/lib.rs:79-110): takes a cached node if one
exists (popping it off the cache chain), otherwise pushes a fresh node onto
the backing `Vec`.  Returns the slot of the new node and the new state. -/
def new_node (st : VecList T) (v : T) : Nat × VecList T :=
  match st.cache with
  | some c =>
    let st1 := st.setValue c v
    let nxt := (st1.nodes c).next
    let st2 := st1.setNext c none
    (c, { st2 with cache := nxt })
  | none =>
    let i := st.node_count
    let st1 := st.setNode i { prev := none, next := none, value := v }
    (i, { st1 with
          node_count := st.node_count + 1
          cap := if st.node_count < st.cap then st.cap else vecGrow st.cap })

/-- Source `VecList::new` (src/lib.rs:131-139).  The `nodes` map needs a default
value for unallocated slots, which the `Vec` embedding never reads. -/
def newList [Inhabited T] : VecList T :=
  { head := none, tail := none, len := 0, cache := none
    nodes := fun _ => { prev := none, next := none, value := default }
    node_count := 0, cap := 0 }

/-- Source `VecList::with_capacity` (src/lib.rs:150-158). -/
def with_capacity [Inhabited T] (capacity : Nat) : VecList T :=
  { newList with cap := capacity }

/-- Source `VecList::is_empty` (src/lib.rs:467-468): `self.head.is_none()`. -/
def is_empty (st : VecList T) : Bool :=
  st.head.isNone

/-- Source `VecList::front` (src/lib.rs:557-560). -/
def front (st : VecList T) : Option T :=
  st.head.map fun h => (st.nodes h).value

/-- Source `VecList::back` (src/lib.rs:599-602). -/
def back (st : VecList T) : Option T :=
  st.tail.map fun t => (st.nodes t).value

/-- Source `VecList::push_front` (src/lib.rs:644-662). -/
def push_front (st : VecList T) (elt : T) : VecList T :=
  let p := st.new_node elt
  let n := p.1
  let st1 := p.2
  -- `mem::swap(&mut node, &mut self.head)`
  let node := st1.head
  let st2 := { st1 with head := some n }
  let st3 :=
    match node with
    | some old => st2.nodeAppendTo old st2.head
    | none => { st2 with tail := st2.head }
  { st3 with len := st3.len + 1 }

/-- Source `VecList::push_back` (src/lib.rs:726-744). -/
def push_back (st : VecList T) (elt : T) : VecList T :=
  let p := st.new_node elt
  let n := p.1
  let st1 := p.2
  let node := st1.tail
  let st2 := { st1 with tail := some n }
  let st3 :=
    match node with
    | some old => st2.nodeAppend old st2.tail
    | none => { st2 with head := st2.tail }
  { st3 with len := st3.len + 1 }

/-- Source `VecList::pop_front` (src/lib.rs:682-713).  The `self.len -= 1` of the
source is a `usize` decrement (which only underflows in states the claims
exhibit as already corrupted); `Nat` subtraction truncates at zero instead. -/
def pop_front (st : VecList T) : Option T × VecList T :=
  match st.head with
  | none => (none, st)
  | some h =>
    let st1 := { st with head := none }
    let q := st1.popNext h
    let st2 := { q.2 with head := q.1 }
    let st3 := st2.nodeAppend h st2.cache
    let st4 : VecList T := { st3 with cache := some h, len := st3.len - 1 }
    let st5 := if st4.len = 0 then { st4 with tail := none } else st4
    (some ((st5.nodes h).value), st5)

/-- Source `VecList::pop_back` (src/lib.rs:759-790). -/
def pop_back (st : VecList T) : Option T × VecList T :=
  match st.tail with
  | none => (none, st)
  | some t =>
    let st1 := { st with tail := none }
    let q := st1.popPrev t
    let st2 := { q.2 with tail := q.1 }
    let st3 := st2.nodeAppend t st2.cache
    let st4 : VecList T := { st3 with cache := some t, len := st3.len - 1 }
    let st5 := if st4.len = 0 then { st4 with head := none } else st4
    (some ((st5.nodes t).value), st5)

/-- Source `VecList::get_node` (src/lib.rs:52-77): positional lookup.  Fails (the
source `assert!`/`expect` panics) unless the list is non-empty and the index
is in bounds, then walks `index` `next` steps from the head if the head is
the closer end, and `len - index - 1` `prev` steps from the tail otherwise. -/
def get_node (st : VecList T) (index : Nat) : Except String Nat :=
  if ¬(¬st.is_empty ∧ index < st.len) then .error "Invalid index"
  else
    let reverse := st.len - index - 1
    if index < reverse then
      match st.head with
      | none => .error "no head was found"
      | some h => walkE (fun i => (st.nodes i).next) h index
    else
      match st.tail with
      | none => .error "no tail was found"
      | some t => walkE (fun i => (st.nodes i).prev) t reverse

/-- Source `VecList::drain` range resolution (src/lib.rs:377-401): computes the
start and end positions from the range bounds, then runs the three
`assert!`s.  Returns the resolved `(head, tail)` position pair, or `none`
when the list is empty (the source then builds a null drain), or an error for
a panic.  The `Bound::Unbounded` end arm is the source's
`Some(self.len()).filter(|i| *i == 0).unwrap_or(0)`. -/
def drainResolve (st : VecList T) (range : RangeB) :
    Except String (Option (Nat × Nat)) := do
  let head ←
    match range.start with
    | .included i => pure i
    | .excluded i => pure (i + 1)
    | .unbounded => pure 0
  let tail ←
    match range.stop with
    | .included i => pure i
    | .excluded i =>
      if i = 0 then Except.error "End point excludes all values"
      else pure (i - 1)
    | .unbounded => pure (((some st.len).filter fun i => i = 0).getD 0)
  if ¬(head ≤ tail) then .error "Start point was greater than the end point"
  else if ¬(head = 0 ∨ head < st.len) then
    .error "Start point goes off the end of the list"
  else if ¬(tail = 0 ∨ tail < st.len) then
    .error "End point goes off the end of the list"
  else if st.is_empty then pure none
  else pure (some (head, tail))

/-- Source `VecList::shrink_to_fit` (src/lib.rs:287-288): delegates to
`Vec::shrink_to_fit`, which only releases excess capacity (capacity drops to
the `Vec`'s length, i.e. `node_count`).  Nodes, links and list ends are
untouched: there is no compaction. -/
def shrink_to_fit (st : VecList T) : VecList T :=
  { st with cap := st.node_count }

/-- Source `VecList::reserve` (src/lib.rs:187-188): delegates to `Vec::reserve`,
modelled from the Rust std documentation: grow only when the spare capacity
is short of `additional`, with amortized (at least doubling) growth. -/
def reserve (st : VecList T) (additional : Nat) : VecList T :=
  { st with
    cap :=
      if st.node_count + additional ≤ st.cap then st.cap
      else max (2 * st.cap) (st.node_count + additional) }

/-- Source `VecList::reserve_exact` (src/lib.rs:204-205): delegates to
`Vec::reserve_exact`, modelled from the Rust std documentation: grow only
when needed, to exactly `len + additional`. -/
def reserve_exact (st : VecList T) (additional : Nat) : VecList T :=
  { st with
    cap :=
      if st.node_count + additional ≤ st.cap then st.cap
      else st.node_count + additional }

/-- The slot-reservation count of `VecList::append` (src/lib.rs:342-353):
`let reserve = other.len() - self.cached();`, a `usize` subtraction, modelled
checked (`none` is the debug-build overflow panic; release builds wrap). -/
def appendReserve (st other : VecList T) : Option Nat :=
  if st.cached ≤ other.len then some (other.len - st.cached) else none

/-- What the spec's words — "account for already-available free slots before
growing the buffer" — would make of `reserve(n)`: only `n` minus the cached
free slots is requested from the buffer.  Written from the spec for
comparison against the source's `reserve`; it is not the source's code. -/
def reserveClaimed (st : VecList T) (additional : Nat) : VecList T :=
  st.reserve (additional - st.cached)

/-- Slot `a` and slot `b` are doubly linked neighbors in the old draft's
arena (spec invariant 3). -/
def linksTo (st : VecList T) (a b : Nat) : Prop :=
  (st.nodes a).next = some b ∧ (st.nodes b).prev = some a

instance (st : VecList T) (a b : Nat) : Decidable (st.linksTo a b) :=
  inferInstanceAs
    (Decidable ((st.nodes a).next = some b ∧ (st.nodes b).prev = some a))

/-- Predicate: `cs` is the active chain of an old-draft list: distinct slots whose
interior links are consistent in both directions, with `head`, `tail` and
`len` agreeing with the chain.  Boundary back-links (`head.prev`,
`tail.next`) are deliberately not constrained: the old draft's `pop_front` /
`pop_back` leave them stale, and no traversal of `get_node` ever reads
them. -/
def Chained (st : VecList T) (cs : List Nat) : Prop :=
  cs.Nodup ∧ List.Chain' (st.linksTo) cs ∧
  st.head = cs.head? ∧ st.tail = cs.getLast? ∧ st.len = cs.length

instance (st : VecList T) (cs : List Nat) : Decidable (st.Chained cs) :=
  inferInstanceAs
    (Decidable (cs.Nodup ∧ List.Chain' (st.linksTo) cs ∧
      st.head = cs.head? ∧ st.tail = cs.getLast? ∧ st.len = cs.length))

end VecList

end OldDraft

namespace RawVec

/-- Source `RawVec::reserve_exact` (src/raw_vec.rs:56-78), capacity arithmetic only:
given current capacity, used capacity and the additional request, the
resulting capacity.  When growth is needed the source reallocates to
`self.cap() + additional` (both the `cap == 0` and the realloc arm produce
this value).  The `checked_add` overflow panics cannot fire on `Nat`. -/
def reserve_exact (cap used additional : Nat) : Nat :=
  if cap < used + additional then cap + additional else cap

/-- Source `RawVec::reserve` (src/raw_vec.rs:85-106), capacity arithmetic only:
when growth is needed the new capacity is
`max(cap.saturating_mul(2), used + additional)` (saturation cannot fire on
`Nat`). -/
def reserve (cap used additional : Nat) : Nat :=
  if cap < used + additional then max (2 * cap) (used + additional) else cap

end RawVec

namespace NewDraft

/-- The new draft's list state.  Its `VecList` core type is not among the
sources; this shape is dictated by the callers that are (`src/iters/*`,
`src/views/*`, `src/nodes.rs`): a backing node buffer `nodes` indexed by
slot (`list.nodes[i]`), end pointers `ends : Option<(usize, usize)>`
destructured everywhere as `(l_head, l_tail)`, a length, and — modelled from
the spec — a free list: "`Option<SlotIndex>` head of a singly-linked
(next-pointer only) stack of deallocated slots available for reuse". -/
structure VecList (T : Type) where
  nodes : Nat → Node T
  free : Option Nat
  ends : Option (Nat × Nat)
  len : Nat

namespace VecList

variable {T : Type}

/-- Replace the node stored in slot `i`. -/
def setNode (st : VecList T) (i : Nat) (nd : Node T) : VecList T :=
  { st with nodes := Function.update st.nodes i nd }

/-- Write the `next` link of slot `i`. -/
def setNext (st : VecList T) (i : Nat) (nx : Option Nat) : VecList T :=
  st.setNode i { st.nodes i with next := nx }

/-- Write the `prev` link of slot `i`. -/
def setPrev (st : VecList T) (i : Nat) (pv : Option Nat) : VecList T :=
  st.setNode i { st.nodes i with prev := pv }

/-- Write the value of slot `i`. -/
def setValue (st : VecList T) (i : Nat) (v : T) : VecList T :=
  st.setNode i { st.nodes i with value := v }

/-- Source `Node::disconnect` (src/nodes.rs:48-57): unlink slot `i` from the chain.
If a predecessor exists, its `next` is pointed past `i`; then, if a successor
exists, `i`'s own `next` is taken (cleared), the successor's `prev` is set to
`i`'s `prev`, and `i`'s own `prev` is taken (cleared).  When `i` has no
successor its own `prev` link is left in place, exactly as in the source. -/
def disconnect (st : VecList T) (i : Nat) : VecList T :=
  let nd := st.nodes i
  let st1 :=
    match nd.prev with
    | some p => st.setNext p nd.next
    | none => st
  match nd.next with
  | some nx =>
    let st2 := st1.setNext i none
    let st3 := st2.setPrev nx nd.prev
    st3.setPrev i none
  | none => st1

/-- Modelled from the spec: the free-list half of `dealloc` — "pushes the
slot onto the free list" — using the stack discipline of
`Node::stack_push` (src/nodes.rs:58-60): the slot's `next` points at the old
free head and the slot becomes the new head.  `dealloc` "does not zero or
validate the slot's prior chain links". -/
def freePush (st : VecList T) (i : Nat) : VecList T :=
  match st.free with
  | some h => { st.setNext i (some h) with free := some i }
  | none => { st with free := some i }

/-- Modelled from the spec: the missing core's `remove_node` used by
`Drain::next`, `DrainFilter::next` and the `ViewMut` editors — the node is
unlinked from the chain (`Node::disconnect`, src/nodes.rs), "destroyed by
`dealloc` (value moved out, slot pushed onto the free list)", and the list
length is decremented.  It does not touch the list's `ends`; every caller in
the sources patches `ends` itself before calling `remove_node`. -/
def remove_node (st : VecList T) (i : Nat) : T × VecList T :=
  let v := (st.nodes i).value
  let st1 := st.disconnect i
  let st2 := st1.freePush i
  (v, { st2 with len := st2.len - 1 })

/-- The `list.ends` patch block shared verbatim by `Drain::next`,
`Drain::next_back` (src/iters/drain.rs:80-93, 133-145) and
`DrainFilter::next`/`next_back` (src/iters/drain_filter.rs:55-68, 123-137):
before removing `node`, if it is both end pointers the list becomes empty;
if it is only the head, the head advances to `node`'s successor; if only the
tail, the tail retreats to `node`'s predecessor. -/
def patchEnds (st : VecList T) (node : Nat) : VecList T :=
  match st.ends with
  | some (lh, lt) =>
    if node = lh ∧ node = lt then { st with ends := none }
    else if node = lh then
      { st with ends := ((st.nodes node).next).map fun nx => (nx, lt) }
    else if node = lt then
      { st with ends := ((st.nodes node).prev).map fun pv => (lh, pv) }
    else st
  | none => st

/-- Source `Drain::next` (src/iters/drain.rs:76-103).  The iterator state is its
`ends : Option<(usize, usize)>` pair of slot indices; one step patches the
list's `ends`, advances the iterator's own `ends` (dropping to `None` at the
range's tail), and removes and yields the node at the range's head. -/
def drainNext (st : VecList T) (de : Option (Nat × Nat)) :
    Option T × VecList T × Option (Nat × Nat) :=
  match de with
  | none => (none, st, none)
  | some (node, dtail) =>
    let st1 := st.patchEnds node
    let de' :=
      if node = dtail then none
      else ((st1.nodes node).next).map fun nx => (nx, dtail)
    let q := st1.remove_node node
    (some q.1, q.2, de')

/-- Source `Drain::next_back` (src/iters/drain.rs:128-155): symmetric to
`drainNext`, removing at the range's tail and retreating through `prev`. -/
def drainNextBack (st : VecList T) (de : Option (Nat × Nat)) :
    Option T × VecList T × Option (Nat × Nat) :=
  match de with
  | none => (none, st, none)
  | some (dhead, node) =>
    let st1 := st.patchEnds node
    let de' :=
      if node = dhead then none
      else ((st1.nodes node).prev).map fun pv => (dhead, pv)
    let q := st1.remove_node node
    (some q.1, q.2, de')

/-- Iterate `drainNext` a given number of times, keeping only the list and
iterator state (a caller stepping the drain `k` times and discarding the
yielded values). -/
def stepDrain : Nat → VecList T × Option (Nat × Nat) →
    VecList T × Option (Nat × Nat)
  | 0, x => x
  | k + 1, x =>
    let r := drainNext x.1 x.2
    stepDrain k (r.2.1, r.2.2)

/-- As `stepDrain`, but stepping from the back through `drainNextBack`. -/
def stepDrainBack : Nat → VecList T × Option (Nat × Nat) →
    VecList T × Option (Nat × Nat)
  | 0, x => x
  | k + 1, x =>
    let r := drainNextBack x.1 x.2
    stepDrainBack k (r.2.1, r.2.2)

/-- Drive a drain to completion, collecting the yielded values:
`Drop for Drain` (src/iters/drain.rs:66-71) runs `self.for_each(|_| ())`,
i.e. calls `next` until it yields nothing.  Fuel-bounded; any fuel at least
the length of the remaining range reaches the `none` state. -/
def runDrain : Nat → VecList T → Option (Nat × Nat) →
    List T × VecList T
  | 0, st, _ => ([], st)
  | fuel + 1, st, de =>
    match drainNext st de with
    | (none, st', _) => ([], st')
    | (some v, st', de') =>
      let r := runDrain fuel st' de'
      (v :: r.1, r.2)

/-- The list state left after the `Drop` of a `Drain`
(src/iters/drain.rs:66-71): iteration driven to completion. -/
def dropDrain (x : VecList T × Option (Nat × Nat)) : VecList T :=
  (runDrain (x.1.len + 1) x.1 x.2).2

/-- Source `DrainFilter::next` (src/iters/drain_filter.rs:39-82).  The caller's
`FnMut(&mut T) -> bool` closure is modelled as a pure `f : T → T × Bool`
(the mutated value and the verdict): the predicate is applied with mutable
access, its write-back is stored, and if it passed the node is removed and
the (mutated) value yielded; otherwise the node stays in place and the
iterator advances to the next candidate — the source's tail-recursive
`return self.next()`, bounded here by fuel. -/
def drainFilterNext (f : T → T × Bool) : Nat → VecList T →
    Option (Nat × Nat) → Option T × VecList T × Option (Nat × Nat)
  | 0, st, de => (none, st, de)
  | fuel + 1, st, de =>
    match de with
    | none => (none, st, none)
    | some (node, dtail) =>
      let fr := f ((st.nodes node).value)
      let st1 := st.setValue node fr.1
      let passed := fr.2
      let st2 := if passed then st1.patchEnds node else st1
      let de' :=
        if node = dtail then none
        else ((st2.nodes node).next).map fun nx => (nx, dtail)
      if passed then
        let q := st2.remove_node node
        (some q.1, q.2, de')
      else drainFilterNext f fuel st2 de'

/-- Source `DrainFilter::next_back` (src/iters/drain_filter.rs:111-150): symmetric
to `drainFilterNext`, testing at the range's tail and retreating through
`prev`. -/
def drainFilterNextBack (f : T → T × Bool) : Nat → VecList T →
    Option (Nat × Nat) → Option T × VecList T × Option (Nat × Nat)
  | 0, st, de => (none, st, de)
  | fuel + 1, st, de =>
    match de with
    | none => (none, st, none)
    | some (dhead, node) =>
      let fr := f ((st.nodes node).value)
      let st1 := st.setValue node fr.1
      let passed := fr.2
      let st2 := if passed then st1.patchEnds node else st1
      let de' :=
        if node = dhead then none
        else ((st2.nodes node).prev).map fun pv => (dhead, pv)
      if passed then
        let q := st2.remove_node node
        (some q.1, q.2, de')
      else drainFilterNextBack f fuel st2 de'

/-- Drive a filtering drain to completion through `drainFilterNext`,
collecting the yielded values (full consumption; the spec's destruction
behavior runs the same iteration).  `nf` is the fuel handed to each `next`
call, `fuel` bounds the number of yields. -/
def runDrainFilter (f : T → T × Bool) (nf : Nat) : Nat → VecList T →
    Option (Nat × Nat) → List T × VecList T
  | 0, st, _ => ([], st)
  | fuel + 1, st, de =>
    match drainFilterNext f nf st de with
    | (none, st', _) => ([], st')
    | (some v, st', de') =>
      let r := runDrainFilter f nf fuel st' de'
      (v :: r.1, r.2)

/-- As `runDrainFilter`, but stepping backwards through
`drainFilterNextBack` (a caller iterating `.rev()`). -/
def runDrainFilterBack (f : T → T × Bool) (nf : Nat) : Nat → VecList T →
    Option (Nat × Nat) → List T × VecList T
  | 0, st, _ => ([], st)
  | fuel + 1, st, de =>
    match drainFilterNextBack f nf st de with
    | (none, st', _) => ([], st')
    | (some v, st', de') =>
      let r := runDrainFilterBack f nf fuel st' de'
      (v :: r.1, r.2)

/-- Modelled from the spec: the missing core's `get_index(position)` used by
`new_drain` — `index_of`: "walks from whichever end is closer — `position`
steps from head, or `length-1-position` steps from tail".  Callers validate
bounds before calling it. -/
def get_index (st : VecList T) (position : Nat) : Except String Nat :=
  match st.ends with
  | none => .error "index out of range"
  | some (h, t) =>
    let reverse := st.len - position - 1
    if position < reverse then walkE (fun i => (st.nodes i).next) h position
    else walkE (fun i => (st.nodes i).prev) t reverse

/-- Source `new_drain` range resolution (src/iters/drain.rs:18-55), up to the
point where positions are turned into slots: computes the inclusive
`(start, end)` position pair (`None` for an unbounded end on an empty list),
then validates it with the two `assert!`s.  Errors are the source's panics;
the `end - 1` of an excluded end bound is a checked `usize` subtraction
(debug builds panic on `..0`; release builds wrap to `usize::MAX` and then
fail the `end < len` assertion, equally fatal). -/
def newDrainResolve (len : Nat) (range : RangeB) :
    Except String (Option (Nat × Nat)) := do
  let start ←
    match range.start with
    | .included s => pure s
    | .excluded s => pure (s + 1)
    | .unbounded => pure 0
  let ends ←
    match range.stop with
    | .included e => pure (some (start, e))
    | .excluded e =>
      if e = 0 then Except.error "attempt to subtract with overflow"
      else pure (some (start, e - 1))
    | .unbounded =>
      pure (if 0 < len then some (start, len - 1) else none)
  match ends with
  | none => pure none
  | some (s, e) =>
    if ¬(s ≤ e) then .error "The range must be acending"
    else if ¬(e < len) then
      .error "The end of the range must be less than the length"
    else pure (some (s, e))

/-- Source `new_drain` (src/iters/drain.rs:18-55) in full: resolve the position
range, then convert both positions to slot indexes with `get_index`.  The
result is the constructed iterator's `ends`. -/
def new_drain (st : VecList T) (range : RangeB) :
    Except String (Option (Nat × Nat)) := do
  match ← newDrainResolve st.len range with
  | none => pure none
  | some (s, e) =>
    let a ← st.get_index s
    let b ← st.get_index e
    pure (some (a, b))

/-- Source `ViewMut::pop_before` (src/views/view_mut.rs:82-96): if the bound slot
has a predecessor, remove it and return its value.  The source's head
update — `list.ends.expect("pop_before: 2").0 = self.view` — assigns to the
field of a by-value copy returned by `expect` (the tuple is `Copy`), so the
list's stored `ends` is not modified; the embedded transition reproduces
that no-op faithfully.  The `expect` itself can still panic when `ends` is
`None`, hence the `Except`. -/
def popBefore (st : VecList T) (view : Nat) : Except String (Option T × VecList T) :=
  match (st.nodes view).prev with
  | none => .ok (none, st)
  | some node =>
    match st.ends with
    | none => .error "pop_before: 1"
    | some _ =>
      let q := st.remove_node node
      .ok (some q.1, q.2)

/-- Source `ViewMut::pop_after` (src/views/view_mut.rs:125-139): symmetric to
`popBefore`; the tail update suffers the same assign-to-a-copy no-op. -/
def popAfter (st : VecList T) (view : Nat) : Except String (Option T × VecList T) :=
  match (st.nodes view).next with
  | none => .ok (none, st)
  | some node =>
    match st.ends with
    | none => .error "pop_after: 1"
    | some _ =>
      let q := st.remove_node node
      .ok (some q.1, q.2)

/-- The values stored along a chain of slots, in chain order. -/
def chainValues (st : VecList T) (cs : List Nat) : List T :=
  cs.map fun i => (st.nodes i).value

/-- Does the element in slot `i` pass the (pure model of the) mutating
predicate `f`? -/
def passIdx (f : T → T × Bool) (st : VecList T) (i : Nat) : Bool :=
  (f ((st.nodes i).value)).2

/-- The values a filtering drain over the slots `R` yields: for each slot in
traversal order, the mutated value when the predicate passed it. -/
def dfYields (f : T → T × Bool) (st : VecList T) (R : List Nat) : List T :=
  R.filterMap fun i =>
    let r := f ((st.nodes i).value)
    if r.2 then some r.1 else none

/-- The slots a filtering drain over `R` leaves in the list: those whose
element fails the predicate. -/
def dfKeep (f : T → T × Bool) (st : VecList T) (R : List Nat) : List Nat :=
  R.filter fun i => !(passIdx f st i)

/-- Split a run of slots at the first one whose element passes the
predicate: the all-failing skipped front, and, if present, the first passing
slot with the slots after it. -/
def splitRun (f : T → T × Bool) (st : VecList T) :
    List Nat → List Nat × Option (Nat × List Nat)
  | [] => ([], none)
  | c :: R2 =>
    if passIdx f st c then ([], some (c, R2))
    else
      let q := splitRun f st R2
      (c :: q.1, q.2)

/-- Slot `a` and slot `b` are doubly linked neighbors: `a`'s `next` points at
`b` and `b`'s `prev` points back at `a` (spec invariant 3). -/
def linksTo (st : VecList T) (a b : Nat) : Prop :=
  (st.nodes a).next = some b ∧ (st.nodes b).prev = some a

instance (st : VecList T) (a b : Nat) : Decidable (st.linksTo a b) :=
  inferInstanceAs
    (Decidable ((st.nodes a).next = some b ∧ (st.nodes b).prev = some a))

/-- The chain's first slot has no predecessor link (spec invariant 4),
vacuously true of the empty chain. -/
def prevOfHead (st : VecList T) : List Nat → Bool
  | [] => true
  | h :: _ => (st.nodes h).prev.isNone

/-- The chain's last slot has no successor link (spec invariant 4). -/
def nextOfLast (st : VecList T) (cs : List Nat) : Bool :=
  match cs.getLast? with
  | none => true
  | some t => (st.nodes t).next.isNone

/-- The end pointers determined by a chain: `None` for the empty chain,
otherwise the first and last slots. -/
def endsOf (cs : List Nat) : Option (Nat × Nat) :=
  match cs.head?, cs.getLast? with
  | some h, some t => some (h, t)
  | _, _ => none

/-- Predicate: `cs` is an active chain of `st`: distinct slots, consecutively doubly
linked, with no dangling link at either boundary. -/
def ChainShape (st : VecList T) (cs : List Nat) : Prop :=
  cs.Nodup ∧ List.Chain' (st.linksTo) cs ∧
  st.prevOfHead cs = true ∧ st.nextOfLast cs = true

instance (st : VecList T) (cs : List Nat) : Decidable (st.ChainShape cs) :=
  inferInstanceAs
    (Decidable (cs.Nodup ∧ List.Chain' (st.linksTo) cs ∧
      st.prevOfHead cs = true ∧ st.nextOfLast cs = true))

/-- Predicate: `cs` is the active chain of `st` and the list's bookkeeping agrees with
it: the stored `ends` are the chain's boundary slots (`None` exactly when it
is empty) and the stored length is the chain's length. -/
def ChainInv (st : VecList T) (cs : List Nat) : Prop :=
  st.ChainShape cs ∧ st.ends = endsOf cs ∧ st.len = cs.length

instance (st : VecList T) (cs : List Nat) : Decidable (st.ChainInv cs) :=
  inferInstanceAs
    (Decidable (st.ChainShape cs ∧ st.ends = endsOf cs ∧ st.len = cs.length))

end VecList

/-- The list state holding the values `vs` in order in slots `0..vs.length`,
exactly the state reached by building from a sequence (`from_iter`/`extend`,
repeated push-back into a fresh list): slot `i` holds `vs[i]` with `prev`
and `next` the adjacent slots. -/
def canonical {T : Type} [Inhabited T] (vs : List T) : VecList T :=
  { nodes := fun i =>
      { value := vs.getD i default
        prev := if i = 0 ∨ vs.length ≤ i then none else some (i - 1)
        next := if i + 1 < vs.length then some (i + 1) else none }
    free := none
    ends := if vs.length = 0 then none else some (0, vs.length - 1)
    len := vs.length }

end NewDraft

namespace OldDraft

/-- State `VecList::from(vec![1, 2, 3])`: three values pushed back onto a fresh
list. -/
def listThree : VecList Nat :=
  (((VecList.newList : VecList Nat).push_back 1).push_back 2).push_back 3

/-- The state after `push_front(7); push_front(8); pop_back(); pop_front()`
on a fresh list. -/
def staleHeadState : VecList Nat :=
  ((((VecList.newList : VecList Nat).push_front 7).push_front 8).pop_back.2).pop_front.2

/-- The state after `push_back(7); push_back(8); pop_front(); pop_back()`
on a fresh list. -/
def staleTailState : VecList Nat :=
  ((((VecList.newList : VecList Nat).push_back 7).push_back 8).pop_front.2).pop_back.2

/-- State after `with_capacity(3)`, three values pushed back, one popped from the
front, then `shrink_to_fit()`. -/
def shrinkState : VecList Nat :=
  (((((VecList.with_capacity 3 : VecList Nat).push_back 1).push_back
    2).push_back 3).pop_front.2).shrink_to_fit

/-- Two pushes followed by two pops: a list whose free cache holds two
nodes. -/
def cacheTwoState : VecList Nat :=
  ((((VecList.newList : VecList Nat).push_back 0).push_back 1).pop_front.2).pop_front.2

/-- A one-element list. -/
def oneList : VecList Nat := (VecList.newList : VecList Nat).push_back 1

/-- State after `with_capacity(2)`, two pushes, one pop: a full buffer with one cached
free slot. -/
def reserveState : VecList Nat :=
  (((VecList.with_capacity 2 : VecList Nat).push_back 5).push_back 6).pop_back.2

end OldDraft

namespace NewDraft

/-- The canonical two-element list `[10, 20]`. -/
def viewPair : VecList Nat := canonical [10, 20]

end NewDraft

/-! ## Lemmas: pointwise effect of the new draft's node removal -/

/-- Walking a step function `k` steps from the head of a `k`-long-enough
chain lands on the `k`-th chain element. -/
theorem walkE_chain (step : Nat → Option Nat) :
    ∀ (cs : List Nat), List.Chain' (fun a b => step a = some b) cs →
      ∀ k, k < cs.length → ∀ c0, cs.head? = some c0 →
        walkE step c0 k = .ok (cs.getD k 0) := by
  intro cs
  induction cs with
  | nil =>
    intro _ k hk
    simp at hk
  | cons c rest ih =>
    intro hch k hk c0 hc0
    have hc : c = c0 := by simpa using hc0
    subst hc
    cases k with
    | zero => rfl
    | succ k =>
      cases rest with
      | nil => simp at hk
      | cons r rest2 =>
        have hstep : step c = some r := (List.chain'_cons.mp hch).1
        show walkE step c (k + 1) = _
        unfold walkE
        rw [hstep]
        show walkE step r k = _
        have := ih (List.chain'_cons.mp hch).2 k (by simpa using hk) r rfl
        rw [this, List.getD_cons_succ]

namespace NewDraft

namespace VecList

variable {T : Type}

theorem nodes_setNode (st : VecList T) (i : Nat) (nd : Node T) (j : Nat) :
    (st.setNode i nd).nodes j = if j = i then nd else st.nodes j := by
  simp [setNode, Function.update_apply]

theorem setNext_value (st : VecList T) (i : Nat) (nx : Option Nat) (j : Nat) :
    ((st.setNext i nx).nodes j).value = (st.nodes j).value := by
  unfold setNext; rw [nodes_setNode]; split_ifs with h <;> simp [h]

theorem setNext_prev (st : VecList T) (i : Nat) (nx : Option Nat) (j : Nat) :
    ((st.setNext i nx).nodes j).prev = (st.nodes j).prev := by
  unfold setNext; rw [nodes_setNode]; split_ifs with h <;> simp [h]

theorem setNext_next (st : VecList T) (i : Nat) (nx : Option Nat) (j : Nat) :
    ((st.setNext i nx).nodes j).next = if j = i then nx else (st.nodes j).next := by
  unfold setNext; rw [nodes_setNode]; split_ifs with h <;> simp [h]

theorem setPrev_value (st : VecList T) (i : Nat) (pv : Option Nat) (j : Nat) :
    ((st.setPrev i pv).nodes j).value = (st.nodes j).value := by
  unfold setPrev; rw [nodes_setNode]; split_ifs with h <;> simp [h]

theorem setPrev_next (st : VecList T) (i : Nat) (pv : Option Nat) (j : Nat) :
    ((st.setPrev i pv).nodes j).next = (st.nodes j).next := by
  unfold setPrev; rw [nodes_setNode]; split_ifs with h <;> simp [h]

theorem setPrev_prev (st : VecList T) (i : Nat) (pv : Option Nat) (j : Nat) :
    ((st.setPrev i pv).nodes j).prev = if j = i then pv else (st.nodes j).prev := by
  unfold setPrev; rw [nodes_setNode]; split_ifs with h <;> simp [h]

theorem disconnect_free (st : VecList T) (c : Nat) :
    (st.disconnect c).free = st.free := by
  unfold disconnect
  rcases hp : (st.nodes c).prev with _ | p <;>
    rcases hn : (st.nodes c).next with _ | nx <;>
    simp [hp, hn, setNext, setPrev, setNode]

theorem disconnect_ends (st : VecList T) (c : Nat) :
    (st.disconnect c).ends = st.ends := by
  unfold disconnect
  rcases hp : (st.nodes c).prev with _ | p <;>
    rcases hn : (st.nodes c).next with _ | nx <;>
    simp [hp, hn, setNext, setPrev, setNode]

theorem disconnect_len (st : VecList T) (c : Nat) :
    (st.disconnect c).len = st.len := by
  unfold disconnect
  rcases hp : (st.nodes c).prev with _ | p <;>
    rcases hn : (st.nodes c).next with _ | nx <;>
    simp [hp, hn, setNext, setPrev, setNode]

theorem disconnect_value (st : VecList T) (c j : Nat) :
    ((st.disconnect c).nodes j).value = (st.nodes j).value := by
  unfold disconnect
  rcases hp : (st.nodes c).prev with _ | p <;>
    rcases hn : (st.nodes c).next with _ | nx <;>
    simp [hp, hn, setNext_value, setPrev_value]

theorem disconnect_next (st : VecList T) (c j : Nat) (hjc : j ≠ c)
    (hjp : (st.nodes c).prev ≠ some j) :
    ((st.disconnect c).nodes j).next = (st.nodes j).next := by
  unfold disconnect
  rcases hp : (st.nodes c).prev with _ | p
  · rcases hn : (st.nodes c).next with _ | nx <;>
      simp [hp, hn, setNext_next, setPrev_next, hjc]
  · have hjp' : j ≠ p := by
      intro h
      exact hjp (by rw [hp, h])
    rcases hn : (st.nodes c).next with _ | nx <;>
      simp [hp, hn, setNext_next, setPrev_next, hjc, hjp']

theorem disconnect_prev (st : VecList T) (c j : Nat) (hjc : j ≠ c)
    (hjn : (st.nodes c).next ≠ some j) :
    ((st.disconnect c).nodes j).prev = (st.nodes j).prev := by
  unfold disconnect
  rcases hn : (st.nodes c).next with _ | nx
  · rcases hp : (st.nodes c).prev with _ | p <;>
      simp [hp, hn, setNext_prev, setPrev_prev, hjc]
  · have hjn' : j ≠ nx := by
      intro h
      exact hjn (by rw [hn, h])
    rcases hp : (st.nodes c).prev with _ | p <;>
      simp [hp, hn, setNext_prev, setPrev_prev, hjc, hjn']

theorem disconnect_next_p (st : VecList T) (c p : Nat) (hpc : p ≠ c)
    (hp : (st.nodes c).prev = some p) :
    ((st.disconnect c).nodes p).next = (st.nodes c).next := by
  unfold disconnect
  rcases hn : (st.nodes c).next with _ | nx <;>
    simp [hp, hn, setNext_next, setPrev_next, hpc]

theorem disconnect_prev_n (st : VecList T) (c nx : Nat) (hnc : nx ≠ c)
    (hn : (st.nodes c).next = some nx) :
    ((st.disconnect c).nodes nx).prev = (st.nodes c).prev := by
  unfold disconnect
  rcases hp : (st.nodes c).prev with _ | p <;>
    simp [hp, hn, setNext_prev, setPrev_prev, hnc]

theorem freePush_value (st : VecList T) (i j : Nat) :
    ((st.freePush i).nodes j).value = (st.nodes j).value := by
  unfold freePush
  cases st.free <;> simp [setNext_value]

theorem freePush_prev (st : VecList T) (i j : Nat) :
    ((st.freePush i).nodes j).prev = (st.nodes j).prev := by
  unfold freePush
  cases st.free <;> simp [setNext_prev]

theorem freePush_next (st : VecList T) (i j : Nat) (hji : j ≠ i) :
    ((st.freePush i).nodes j).next = (st.nodes j).next := by
  unfold freePush
  cases st.free <;> simp [setNext_next, hji]

theorem freePush_ends (st : VecList T) (i : Nat) :
    (st.freePush i).ends = st.ends := by
  unfold freePush
  cases st.free <;> rfl

theorem freePush_len (st : VecList T) (i : Nat) :
    (st.freePush i).len = st.len := by
  unfold freePush
  cases st.free <;> rfl

/-- Removal never writes a value field. -/
theorem remove_node_value (st : VecList T) (c j : Nat) :
    (((st.remove_node c).2).nodes j).value = (st.nodes j).value := by
  show (((st.disconnect c).freePush c).nodes j).value = (st.nodes j).value
  rw [freePush_value, disconnect_value]

/-- The `next` link of any slot other than the removed one and its
predecessor is untouched. -/
theorem remove_node_next (st : VecList T) (c j : Nat) (hjc : j ≠ c)
    (hjp : (st.nodes c).prev ≠ some j) :
    (((st.remove_node c).2).nodes j).next = (st.nodes j).next := by
  show (((st.disconnect c).freePush c).nodes j).next = (st.nodes j).next
  rw [freePush_next _ _ _ hjc, disconnect_next _ _ _ hjc hjp]

/-- The `prev` link of any slot other than the removed one and its
successor is untouched. -/
theorem remove_node_prev (st : VecList T) (c j : Nat) (hjc : j ≠ c)
    (hjn : (st.nodes c).next ≠ some j) :
    (((st.remove_node c).2).nodes j).prev = (st.nodes j).prev := by
  show (((st.disconnect c).freePush c).nodes j).prev = (st.nodes j).prev
  rw [freePush_prev, disconnect_prev _ _ _ hjc hjn]

/-- The removed slot's predecessor is relinked past it. -/
theorem remove_node_next_p (st : VecList T) (c p : Nat) (hpc : p ≠ c)
    (hp : (st.nodes c).prev = some p) :
    (((st.remove_node c).2).nodes p).next = (st.nodes c).next := by
  show (((st.disconnect c).freePush c).nodes p).next = (st.nodes c).next
  rw [freePush_next _ _ _ hpc, disconnect_next_p _ _ _ hpc hp]

/-- The removed slot's successor is relinked past it. -/
theorem remove_node_prev_n (st : VecList T) (c nx : Nat) (hnc : nx ≠ c)
    (hn : (st.nodes c).next = some nx) :
    (((st.remove_node c).2).nodes nx).prev = (st.nodes c).prev := by
  show (((st.disconnect c).freePush c).nodes nx).prev = (st.nodes c).prev
  rw [freePush_prev, disconnect_prev_n _ _ _ hnc hn]

theorem remove_node_ends (st : VecList T) (c : Nat) :
    ((st.remove_node c).2).ends = st.ends := by
  show ((st.disconnect c).freePush c).ends = st.ends
  rw [freePush_ends, disconnect_ends]

theorem remove_node_len (st : VecList T) (c : Nat) :
    ((st.remove_node c).2).len = st.len - 1 := by
  show ((st.disconnect c).freePush c).len - 1 = st.len - 1
  rw [freePush_len, disconnect_len]

theorem remove_node_fst (st : VecList T) (c : Nat) :
    (st.remove_node c).1 = (st.nodes c).value := rfl

theorem patchEnds_nodes (st : VecList T) (c : Nat) :
    (st.patchEnds c).nodes = st.nodes := by
  unfold patchEnds
  rcases st.ends with _ | ⟨lh, lt⟩ <;> simp <;> split_ifs <;> rfl

theorem patchEnds_len (st : VecList T) (c : Nat) :
    (st.patchEnds c).len = st.len := by
  unfold patchEnds
  rcases st.ends with _ | ⟨lh, lt⟩ <;> simp <;> split_ifs <;> rfl

theorem setValue_value (st : VecList T) (i : Nat) (v : T) (j : Nat) :
    ((st.setValue i v).nodes j).value = if j = i then v else (st.nodes j).value := by
  unfold setValue
  simp [nodes_setNode]
  split_ifs <;> rfl

theorem setValue_next (st : VecList T) (i : Nat) (v : T) (j : Nat) :
    ((st.setValue i v).nodes j).next = (st.nodes j).next := by
  unfold setValue
  simp [nodes_setNode]
  split_ifs with h <;> simp [h]

theorem setValue_prev (st : VecList T) (i : Nat) (v : T) (j : Nat) :
    ((st.setValue i v).nodes j).prev = (st.nodes j).prev := by
  unfold setValue
  simp [nodes_setNode]
  split_ifs with h <;> simp [h]

theorem setValue_ends (st : VecList T) (i : Nat) (v : T) :
    (st.setValue i v).ends = st.ends := rfl

theorem setValue_len (st : VecList T) (i : Nat) (v : T) :
    (st.setValue i v).len = st.len := rfl

theorem setValue_free (st : VecList T) (i : Nat) (v : T) :
    (st.setValue i v).free = st.free := rfl

end VecList

/-- Transfer a `Chain'` along a relation implication that only holds for
members of the list. -/
theorem chain_congr_mem {R S : Nat → Nat → Prop} :
    ∀ {cs : List Nat}, List.Chain' R cs →
      (∀ a ∈ cs, ∀ b ∈ cs, R a b → S a b) → List.Chain' S cs := by
  intro cs
  induction cs with
  | nil => intro _ _; exact List.chain'_nil
  | cons a t ih =>
    intro h himp
    cases t with
    | nil => exact List.chain'_singleton a
    | cons b t2 =>
      rw [List.chain'_cons] at h ⊢
      refine ⟨himp a (by simp) b (by simp) h.1, ih h.2 ?_⟩
      intro x hx y hy hr
      exact himp x (by simp [hx]) y (by simp [hy]) hr

namespace VecList

variable {T : Type}

/-- Unpack a chain shape around a distinguished slot `c`: the links of `c`
itself are determined by its chain neighborhood, and the rest of the chain
is distinct from `c`. -/
theorem shape_decomp (st : VecList T) (A B : List Nat) (c : Nat)
    (h : st.ChainShape (A ++ c :: B)) :
    (st.nodes c).prev = A.getLast? ∧ (st.nodes c).next = B.head? ∧
      c ∉ A ∧ c ∉ B ∧ (A ++ B).Nodup ∧
      List.Chain' st.linksTo A ∧ List.Chain' st.linksTo B ∧
      (∀ x, A.getLast? = some x → (st.nodes x).next = some c) ∧
      (∀ y, B.head? = some y → (st.nodes y).prev = some c) := by
  obtain ⟨hnd, hch, hhd, htl⟩ := h
  have hnd' : (c :: (A ++ B)).Nodup := (List.nodup_middle).mp hnd
  have hcAB : c ∉ A ++ B := (List.nodup_cons.mp hnd').1
  have hcA : c ∉ A := fun hc => hcAB (List.mem_append.mpr (Or.inl hc))
  have hcB : c ∉ B := fun hc => hcAB (List.mem_append.mpr (Or.inr hc))
  have hndAB : (A ++ B).Nodup := (List.nodup_cons.mp hnd').2
  rw [List.chain'_append] at hch
  obtain ⟨hchA, hchCB, hjunc⟩ := hch
  have hchB : List.Chain' st.linksTo B := (List.chain'_cons'.mp hchCB).2
  constructor
  · -- prev of c
    cases A with
    | nil =>
      simp only [List.getLast?_nil]
      simpa [prevOfHead, Option.isNone_iff_eq_none] using hhd
    | cons a A2 =>
      have hne : (a :: A2) ≠ ([] : List Nat) := by simp
      obtain ⟨p, hp⟩ := List.getLast?_isSome.mpr hne |> Option.isSome_iff_exists.mp
      have := hjunc p (by simp [hp]) c (by simp)
      rw [hp]
      exact this.2
  refine ⟨?_, hcA, hcB, hndAB, hchA, hchB, ?_, ?_⟩
  · -- next of c
    cases B with
    | nil =>
      simp only [List.head?_nil]
      have : (A ++ [c]).getLast? = some c := by
        rw [List.getLast?_append_of_ne_nil A (by simp)]
        rfl
      have htl' := htl
      unfold nextOfLast at htl'
      rw [show A ++ c :: ([] : List Nat) = A ++ [c] from rfl, this] at htl'
      simpa [Option.isNone_iff_eq_none] using htl'
    | cons b B2 =>
      have := (List.chain'_cons.mp hchCB).1
      simpa using this.1
  · -- junction on the A side
    intro x hx
    exact (hjunc x (by simp [hx]) c (by simp)).1
  · -- junction on the B side
    intro y hy
    cases B with
    | nil => simp at hy
    | cons b B2 =>
      have hyb : y = b := by simpa using hy.symm
      subst hyb
      exact ((List.chain'_cons.mp hchCB).1).2

/-- Removing the slot `c` out of the middle of a chain leaves the two
remaining pieces joined into one chain. -/
theorem remove_node_shape (st : VecList T) (A B : List Nat) (c : Nat)
    (h : st.ChainShape (A ++ c :: B)) :
    ((st.remove_node c).2).ChainShape (A ++ B) := by
  obtain ⟨hprev, hnext, hcA, hcB, hndAB, hchA, hchB, hjA, hjB⟩ :=
    st.shape_decomp A B c h
  obtain ⟨_, _, hhd, htl⟩ := h
  have hdisj : A.Disjoint B := ((List.nodup_append).mp hndAB).2.2
  refine ⟨hndAB, ?_, ?_, ?_⟩
  · rw [List.chain'_append]
    refine ⟨?_, ?_, ?_⟩
    · -- pairs inside A keep their links
      refine chain_congr_mem hchA ?_
      intro a ha b hb hr
      have hac : a ≠ c := fun e => hcA (e ▸ ha)
      have hbc : b ≠ c := fun e => hcA (e ▸ hb)
      have hpa : (st.nodes c).prev ≠ some a := by
        intro hpa
        have hja : (st.nodes a).next = some c := hjA a (hprev.symm.trans hpa)
        exact hbc (Option.some_injective _ (hr.1.symm.trans hja))
      have hnb : (st.nodes c).next ≠ some b := by
        intro hnb
        have : b ∈ B :=
          List.mem_of_mem_head? (Option.mem_def.mpr (hnext.symm.trans hnb))
        exact hdisj hb this
      exact ⟨(st.remove_node_next c a hac hpa).trans hr.1,
        (st.remove_node_prev c b hbc hnb).trans hr.2⟩
    · -- pairs inside B keep their links
      refine chain_congr_mem hchB ?_
      intro a ha b hb hr
      have hac : a ≠ c := fun e => hcB (e ▸ ha)
      have hbc : b ≠ c := fun e => hcB (e ▸ hb)
      have hpa : (st.nodes c).prev ≠ some a := by
        intro hpa
        have : a ∈ A :=
          List.mem_of_mem_getLast? (Option.mem_def.mpr (hprev.symm.trans hpa))
        exact hdisj this ha
      have hnb : (st.nodes c).next ≠ some b := by
        intro hnb
        have hjb : (st.nodes b).prev = some c := hjB b (hnext.symm.trans hnb)
        exact hac (Option.some_injective _ (hr.2.symm.trans hjb))
      exact ⟨(st.remove_node_next c a hac hpa).trans hr.1,
        (st.remove_node_prev c b hbc hnb).trans hr.2⟩
    · -- the junction pair is freshly linked
      intro p hp b hb
      have hpA : p ∈ A := List.mem_of_mem_getLast? hp
      have hbB : b ∈ B := List.mem_of_mem_head? hb
      have hpc : p ≠ c := fun e => hcA (e ▸ hpA)
      have hbc : b ≠ c := fun e => hcB (e ▸ hbB)
      constructor
      · rw [st.remove_node_next_p c p hpc (by rw [hprev, hp]), hnext, hb]
      · rw [st.remove_node_prev_n c b hbc (by rw [hnext, hb]), hprev, hp]
  · -- the new chain's head has no predecessor link
    cases A with
    | nil =>
      cases B with
      | nil => rfl
      | cons b B2 =>
        have hbc : b ≠ c := fun e => hcB (e ▸ List.mem_cons_self b B2)
        show (((st.remove_node c).2.nodes b).prev).isNone = true
        rw [st.remove_node_prev_n c b hbc (by rw [hnext]; rfl), hprev]
        rfl
    | cons a A2 =>
      have haA : a ∈ a :: A2 := List.mem_cons_self a A2
      have hac : a ≠ c := fun e => hcA (e ▸ haA)
      have hna : (st.nodes c).next ≠ some a := by
        intro hna
        exact hdisj haA
          (List.mem_of_mem_head? (Option.mem_def.mpr (hnext.symm.trans hna)))
      show (((st.remove_node c).2.nodes a).prev).isNone = true
      rw [st.remove_node_prev c a hac hna]
      simpa [prevOfHead] using hhd
  · -- the new chain's last slot has no successor link
    cases B with
    | nil =>
      rw [List.append_nil]
      cases A with
      | nil => rfl
      | cons a A2 =>
        obtain ⟨p, hp⟩ := Option.isSome_iff_exists.mp
          (List.getLast?_isSome.mpr (by simp : a :: A2 ≠ ([] : List Nat)))
        have hpA : p ∈ a :: A2 := List.mem_of_mem_getLast? (Option.mem_def.mpr hp)
        have hpc : p ≠ c := fun e => hcA (e ▸ hpA)
        unfold nextOfLast
        rw [hp]
        show (((st.remove_node c).2.nodes p).next).isNone = true
        rw [st.remove_node_next_p c p hpc (by rw [hprev, hp]), hnext]
        rfl
    | cons b B2 =>
      obtain ⟨t, ht⟩ := Option.isSome_iff_exists.mp
        (List.getLast?_isSome.mpr (by simp : b :: B2 ≠ ([] : List Nat)))
      have htB : t ∈ b :: B2 := List.mem_of_mem_getLast? (Option.mem_def.mpr ht)
      have htc : t ≠ c := fun e => hcB (e ▸ htB)
      have hpt : (st.nodes c).prev ≠ some t := by
        intro hpt
        exact hdisj
          (List.mem_of_mem_getLast? (Option.mem_def.mpr (hprev.symm.trans hpt))) htB
      unfold nextOfLast
      rw [List.getLast?_append_of_ne_nil A (by simp : b :: B2 ≠ ([] : List Nat)), ht]
      show (((st.remove_node c).2.nodes t).next).isNone = true
      rw [st.remove_node_next c t htc hpt]
      have htl' := htl
      unfold nextOfLast at htl'
      rw [List.getLast?_append_of_ne_nil A
        (by simp : c :: b :: B2 ≠ ([] : List Nat)), List.getLast?_cons_cons,
        ht] at htl'
      exact htl'

/-- The shared `list.ends` patch block computes exactly the end pointers of
the chain with `c` removed. -/
theorem patchEnds_spec (st : VecList T) (A B : List Nat) (c : Nat)
    (hsh : st.ChainShape (A ++ c :: B)) (he : st.ends = endsOf (A ++ c :: B)) :
    (st.patchEnds c).ends = endsOf (A ++ B) := by
  obtain ⟨hprev, hnext, hcA, hcB, hndAB, _, _, _, _⟩ := st.shape_decomp A B c hsh
  cases A with
  | nil =>
    cases B with
    | nil =>
      have hends : st.ends = some (c, c) := by rw [he]; rfl
      unfold patchEnds
      rw [hends]
      simp [endsOf]
    | cons b B2 =>
      obtain ⟨t, ht⟩ := Option.isSome_iff_exists.mp
        (List.getLast?_isSome.mpr (by simp : b :: B2 ≠ ([] : List Nat)))
      have htB : t ∈ b :: B2 := List.mem_of_mem_getLast? (Option.mem_def.mpr ht)
      have hct : ¬(c = t) := fun e => hcB (e ▸ htB)
      have hends : st.ends = some (c, t) := by
        rw [he]
        unfold endsOf
        rw [List.nil_append, List.getLast?_cons_cons, ht]
        rfl
      unfold patchEnds
      rw [hends]
      have hnb : (st.nodes c).next = some b := by rw [hnext]; rfl
      simp only [hct, and_false, if_false, if_pos rfl, hnb, Option.map_some']
      unfold endsOf
      rw [List.nil_append, ht]
      rfl
  | cons a A2 =>
    have hca : ¬(c = a) := fun e => hcA (e ▸ List.mem_cons_self a A2)
    obtain ⟨p, hp⟩ := Option.isSome_iff_exists.mp
      (List.getLast?_isSome.mpr (by simp : a :: A2 ≠ ([] : List Nat)))
    cases B with
    | nil =>
      have hends : st.ends = some (a, c) := by
        rw [he]
        unfold endsOf
        rw [List.getLast?_append_of_ne_nil (a :: A2)
          (by simp : c :: ([] : List Nat) ≠ [])]
        rfl
      unfold patchEnds
      rw [hends]
      have hpc : (st.nodes c).prev = some p := by rw [hprev, hp]
      simp only [hca, false_and, if_false, if_pos rfl, hpc, Option.map_some']
      rw [List.append_nil]
      unfold endsOf
      rw [hp]
      rfl
    | cons b B2 =>
      obtain ⟨t, ht⟩ := Option.isSome_iff_exists.mp
        (List.getLast?_isSome.mpr (by simp : b :: B2 ≠ ([] : List Nat)))
      have htB : t ∈ b :: B2 := List.mem_of_mem_getLast? (Option.mem_def.mpr ht)
      have hct : ¬(c = t) := fun e => hcB (e ▸ htB)
      have hends : st.ends = some (a, t) := by
        rw [he]
        unfold endsOf
        rw [List.getLast?_append_of_ne_nil (a :: A2)
          (by simp : c :: b :: B2 ≠ ([] : List Nat)), List.getLast?_cons_cons,
          ht]
        rfl
      unfold patchEnds
      rw [hends]
      simp only [hca, hct, false_and, and_false, if_false]
      unfold endsOf
      rw [show (a :: A2) ++ b :: B2 = a :: (A2 ++ b :: B2) from rfl,
        List.getLast?_cons, List.getLast?_append_of_ne_nil A2
          (by simp : b :: B2 ≠ ([] : List Nat)), ht, hends]
      rfl

/-- The patch `patchEnds` only writes the `ends` field, so chain shapes carry over. -/
theorem chainShape_patchEnds (st : VecList T) (c : Nat) (cs : List Nat) :
    (st.patchEnds c).ChainShape cs ↔ st.ChainShape cs := by
  unfold patchEnds
  rcases he : st.ends with _ | ⟨lh, lt⟩
  · simp only [he]
  · simp only [he]
    split_ifs <;> exact Iff.rfl

/-- One forward drain step on a nonempty remaining range: yields the head
element, moves the iterator to the rest of the range, and leaves the list
chain with that slot removed. -/
theorem drainNext_step (st : VecList T) (A C : List Nat) (c : Nat)
    (R2 : List Nat) (h : st.ChainInv (A ++ (c :: R2) ++ C)) :
    drainNext st (endsOf (c :: R2)) =
      (some ((st.nodes c).value), (((st.patchEnds c).remove_node c).2),
        endsOf R2) ∧
      (((st.patchEnds c).remove_node c).2).ChainInv (A ++ R2 ++ C) ∧
      (∀ j, ((((st.patchEnds c).remove_node c).2).nodes j).value =
        (st.nodes j).value) := by
  obtain ⟨hsh, hends, hlen⟩ := h
  have hshB : st.ChainShape (A ++ c :: (R2 ++ C)) := by
    rwa [List.append_assoc, List.cons_append] at hsh
  have hendsB : st.ends = endsOf (A ++ c :: (R2 ++ C)) := by
    rwa [List.append_assoc, List.cons_append] at hends
  obtain ⟨hprev, hnext, hcA, hcBR, _, _, _, _, _⟩ :=
    st.shape_decomp A (R2 ++ C) c hshB
  have hsh1 : (st.patchEnds c).ChainShape (A ++ c :: (R2 ++ C)) :=
    (st.chainShape_patchEnds c _).mpr hshB
  have hshape' : (((st.patchEnds c).remove_node c).2).ChainShape (A ++ R2 ++ C) := by
    have := (st.patchEnds c).remove_node_shape A (R2 ++ C) c hsh1
    rwa [← List.append_assoc] at this
  have hends' : (((st.patchEnds c).remove_node c).2).ends =
      endsOf (A ++ R2 ++ C) := by
    rw [remove_node_ends, st.patchEnds_spec A (R2 ++ C) c hshB hendsB,
      List.append_assoc]
  have hlen' : (((st.patchEnds c).remove_node c).2).len =
      (A ++ R2 ++ C).length := by
    rw [remove_node_len, patchEnds_len, hlen]
    simp
  have hvals : ∀ j, ((((st.patchEnds c).remove_node c).2).nodes j).value =
      (st.nodes j).value := by
    intro j
    rw [remove_node_value]
    exact congrArg Node.value (congrFun (st.patchEnds_nodes c) j)
  refine ⟨?_, ⟨hshape', hends', hlen'⟩, hvals⟩
  -- the step triple
  cases R2 with
  | nil =>
    show drainNext st (some (c, c)) = _
    simp [drainNext, remove_node_fst, patchEnds_nodes, endsOf]
  | cons r R3 =>
    obtain ⟨t, ht⟩ := Option.isSome_iff_exists.mp
      (List.getLast?_isSome.mpr (by simp : r :: R3 ≠ ([] : List Nat)))
    have htR : t ∈ r :: R3 := List.mem_of_mem_getLast? (Option.mem_def.mpr ht)
    have hct : ¬(c = t) := fun e =>
      hcBR (e ▸ List.mem_append.mpr (Or.inl htR))
    have hde : endsOf (c :: r :: R3) = some (c, t) := by
      unfold endsOf
      rw [List.getLast?_cons_cons, ht]
      rfl
    have hde2 : endsOf (r :: R3) = some (r, t) := by
      unfold endsOf
      rw [ht]
      rfl
    rw [hde, hde2]
    have hnxt : ((st.patchEnds c).nodes c).next = some r := by
      rw [patchEnds_nodes, hnext]
      rfl
    show drainNext st (some (c, t)) = _
    simp [drainNext, remove_node_fst, patchEnds_nodes, hct, hnxt]
    rw [hnext]
    rfl

/-- Driving a drain over the range `R` to completion yields exactly the
values stored in `R` (in order) and leaves the list's chain as the two
surrounding pieces joined, everything else untouched. -/
theorem runDrain_spec :
    ∀ (R A C : List Nat) (st : VecList T) (fuel : Nat),
      st.ChainInv (A ++ R ++ C) → R.length < fuel →
      (runDrain fuel st (endsOf R)).1 = chainValues st R ∧
      ((runDrain fuel st (endsOf R)).2).ChainInv (A ++ C) ∧
      (∀ j, (((runDrain fuel st (endsOf R)).2).nodes j).value =
        (st.nodes j).value) := by
  intro R
  induction R with
  | nil =>
    intro A C st fuel h hf
    match fuel, hf with
    | fuel + 1, _ =>
      refine ⟨rfl, ?_, fun j => rfl⟩
      simpa using h
  | cons c R2 ih =>
    intro A C st fuel h hf
    match fuel, hf with
    | fuel + 1, hf =>
      obtain ⟨hstep, hinv', hvals⟩ := st.drainNext_step A C c R2 h
      have hf2 : R2.length < fuel := by
        simpa using Nat.lt_of_succ_lt_succ hf
      obtain ⟨ihy, ihinv, ihvals⟩ :=
        ih A C (((st.patchEnds c).remove_node c).2) fuel hinv' hf2
      have hrun1 : (runDrain (fuel + 1) st (endsOf (c :: R2))).1 =
          (st.nodes c).value ::
            (runDrain fuel (((st.patchEnds c).remove_node c).2)
              (endsOf R2)).1 := by
        simp only [runDrain]
        rw [hstep]
      have hrun2 : (runDrain (fuel + 1) st (endsOf (c :: R2))).2 =
          (runDrain fuel (((st.patchEnds c).remove_node c).2)
            (endsOf R2)).2 := by
        simp only [runDrain]
        rw [hstep]
      refine ⟨?_, ?_, ?_⟩
      · rw [hrun1, ihy]
        unfold chainValues
        exact congrArg _ (List.map_congr_left fun i _ => hvals i)
      · rw [hrun2]
        exact ihinv
      · intro j
        rw [hrun2, ihvals j, hvals j]

/-- Stepping a drain any number of times and then destroying it leaves the
same final list as destroying it immediately: the whole range is removed. -/
theorem stepDrain_drop :
    ∀ (k : Nat) (R A C : List Nat) (st : VecList T),
      st.ChainInv (A ++ R ++ C) →
      (dropDrain (stepDrain k (st, endsOf R))).ChainInv (A ++ C) ∧
      (∀ j, ((dropDrain (stepDrain k (st, endsOf R))).nodes j).value =
        (st.nodes j).value) := by
  intro k
  induction k with
  | zero =>
    intro R A C st h
    have hlen : R.length < st.len + 1 := by
      have : st.len = (A ++ R ++ C).length := h.2.2
      simp [this]
      omega
    have := runDrain_spec R A C st (st.len + 1) h hlen
    exact ⟨this.2.1, this.2.2⟩
  | succ k ih =>
    intro R A C st h
    cases R with
    | nil =>
      show (dropDrain (stepDrain k (st, none))).ChainInv (A ++ C) ∧ _
      have := ih [] A C st h
      simpa [endsOf] using this
    | cons c R2 =>
      obtain ⟨hstep, hinv', hv⟩ := st.drainNext_step A C c R2 h
      have hrw : stepDrain (k + 1) (st, endsOf (c :: R2)) =
          stepDrain k ((((st.patchEnds c).remove_node c).2), endsOf R2) := by
        simp only [stepDrain]
        rw [hstep]
      rw [hrw]
      obtain ⟨hinv2, hvals2⟩ :=
        ih R2 A C (((st.patchEnds c).remove_node c).2) hinv'
      refine ⟨hinv2, fun j => ?_⟩
      rw [hvals2 j, hv j]

theorem linksTo_setValue (st : VecList T) (i : Nat) (v : T) (a b : Nat) :
    (st.setValue i v).linksTo a b ↔ st.linksTo a b := by
  unfold linksTo
  rw [setValue_next, setValue_prev]

theorem chainShape_setValue (st : VecList T) (i : Nat) (v : T) (cs : List Nat) :
    (st.setValue i v).ChainShape cs ↔ st.ChainShape cs := by
  have hch : List.Chain' ((st.setValue i v).linksTo) cs ↔
      List.Chain' st.linksTo cs := by
    constructor
    · intro h
      exact chain_congr_mem h fun a _ b _ hr => (st.linksTo_setValue i v a b).mp hr
    · intro h
      exact chain_congr_mem h fun a _ b _ hr => (st.linksTo_setValue i v a b).mpr hr
  have hph : (st.setValue i v).prevOfHead cs = st.prevOfHead cs := by
    cases cs <;> simp [prevOfHead, setValue_prev]
  have hnl : (st.setValue i v).nextOfLast cs = st.nextOfLast cs := by
    unfold nextOfLast
    cases h : cs.getLast? <;> simp [setValue_next]
  unfold ChainShape
  rw [hph, hnl, hch]

theorem chainInv_setValue (st : VecList T) (i : Nat) (v : T) (cs : List Nat) :
    (st.setValue i v).ChainInv cs ↔ st.ChainInv cs := by
  unfold ChainInv
  rw [chainShape_setValue, setValue_ends, setValue_len]

/-- Every run of slots either fails the predicate throughout, or splits at a
first passing slot. -/
theorem run_split (f : T → T × Bool) (st : VecList T) :
    ∀ R : List Nat, (∀ i ∈ R, passIdx f st i = false) ∨
      ∃ skip c R2, R = skip ++ c :: R2 ∧
        (∀ i ∈ skip, passIdx f st i = false) ∧ passIdx f st c = true := by
  intro R
  induction R with
  | nil => exact Or.inl fun i hi => absurd hi (List.not_mem_nil i)
  | cons a R' ih =>
    by_cases hp : passIdx f st a = true
    · exact Or.inr ⟨[], a, R', rfl, fun i hi => absurd hi (List.not_mem_nil i), hp⟩
    · have hpa : passIdx f st a = false := by
        cases h : passIdx f st a
        · rfl
        · exact absurd h hp
      rcases ih with hall | ⟨skip, c, R2, hr, hskip, hc⟩
      · refine Or.inl fun i hi => ?_
        rcases List.mem_cons.mp hi with h | h
        · exact h ▸ hpa
        · exact hall i h
      · refine Or.inr ⟨a :: skip, c, R2, by rw [hr]; rfl, ?_, hc⟩
        intro i hi
        rcases List.mem_cons.mp hi with h | h
        · exact h ▸ hpa
        · exact hskip i h

/-- A run of a chain is duplicate-free. -/
theorem nodup_middle_of_append (A R C : List Nat) (h : (A ++ R ++ C).Nodup) :
    R.Nodup := by
  have h1 : List.Sublist R (R ++ C) := List.sublist_append_left R C
  have h2 : List.Sublist R (A ++ (R ++ C)) :=
    h1.trans (List.sublist_append_right A (R ++ C))
  rw [← List.append_assoc] at h2
  exact h2.nodup h

/-- The iterator-ends advance of a forward step: its `if` collapses to the
ends of the rest of the range. -/
theorem advance_spec (st : VecList T) (A C : List Nat) (s : Nat)
    (R2 : List Nat) (h : st.ChainShape (A ++ (s :: R2) ++ C)) :
    ∃ t0, endsOf (s :: R2) = some (s, t0) ∧
      ((if s = t0 then none
        else ((st.nodes s).next).map fun nx => (nx, t0)) = endsOf R2) := by
  have hshB : st.ChainShape (A ++ s :: (R2 ++ C)) := by
    rwa [List.append_assoc, List.cons_append] at h
  obtain ⟨_, hnext, _, hcBR, _, _, _, _, _⟩ := st.shape_decomp A (R2 ++ C) s hshB
  cases R2 with
  | nil => exact ⟨s, rfl, by simp [endsOf]⟩
  | cons r R3 =>
    obtain ⟨t, ht⟩ := Option.isSome_iff_exists.mp
      (List.getLast?_isSome.mpr (by simp : r :: R3 ≠ ([] : List Nat)))
    have htR : t ∈ r :: R3 := List.mem_of_mem_getLast? (Option.mem_def.mpr ht)
    have hst : ¬(s = t) := fun e =>
      hcBR (e ▸ List.mem_append.mpr (Or.inl htR))
    refine ⟨t, ?_, ?_⟩
    · unfold endsOf
      rw [List.getLast?_cons_cons, ht]
      rfl
    · have hnxt : (st.nodes s).next = some r := by rw [hnext]; rfl
      rw [if_neg hst, hnxt]
      unfold endsOf
      rw [ht]
      rfl

/-- A `drainFilterNext` call over a range that fails the predicate
throughout yields nothing, exhausts the iterator, and leaves the whole range
in the chain with each of its values replaced by the predicate's
write-back. -/
theorem dfNext_allfail (f : T → T × Bool) :
    ∀ (R A C : List Nat) (st : VecList T) (nf : Nat),
      st.ChainInv (A ++ R ++ C) → R.length < nf →
      (∀ i ∈ R, passIdx f st i = false) →
      ∃ st', drainFilterNext f nf st (endsOf R) = (none, st', none) ∧
        st'.ChainInv (A ++ R ++ C) ∧
        (∀ j, j ∉ R → (st'.nodes j).value = (st.nodes j).value) ∧
        (∀ i ∈ R, (st'.nodes i).value = (f ((st.nodes i).value)).1) := by
  intro R
  induction R with
  | nil =>
    intro A C st nf h hf _
    match nf, hf with
    | nf + 1, _ =>
      exact ⟨st, rfl, h, fun j _ => rfl,
        fun i hi => absurd hi (List.not_mem_nil i)⟩
  | cons s R2 ih =>
    intro A C st nf h hf hfail
    match nf, hf with
    | nf + 1, hf =>
      have hfs : (f ((st.nodes s).value)).2 = false :=
        hfail s (List.mem_cons_self s R2)
      have hndR : (s :: R2).Nodup := nodup_middle_of_append A _ C h.1.1
      have hsR2 : s ∉ R2 := (List.nodup_cons.mp hndR).1
      obtain ⟨t0, hde, hadv⟩ := st.advance_spec A C s R2 h.1
      have hinv1 : (st.setValue s (f ((st.nodes s).value)).1).ChainInv
          ((A ++ [s]) ++ R2 ++ C) := by
        rw [show (A ++ [s]) ++ R2 ++ C = A ++ (s :: R2) ++ C by simp]
        exact (st.chainInv_setValue s _ _).mpr h
      have hde2 : (if s = t0 then none
          else (((st.setValue s (f ((st.nodes s).value)).1).nodes s).next).map
            fun nx => (nx, t0)) = endsOf R2 := by
        rw [setValue_next]
        exact hadv
      have hunf : drainFilterNext f (nf + 1) st (endsOf (s :: R2)) =
          drainFilterNext f nf (st.setValue s (f ((st.nodes s).value)).1)
            (endsOf R2) := by
        rw [hde]
        simp only [drainFilterNext, hfs, Bool.false_eq_true, if_false, hde2]
      have hfail1 : ∀ i ∈ R2,
          passIdx f (st.setValue s (f ((st.nodes s).value)).1) i = false := by
        intro i hi
        have his : i ≠ s := fun e => hsR2 (e ▸ hi)
        unfold passIdx
        rw [setValue_value]
        simp only [if_neg his]
        exact hfail i (List.mem_cons_of_mem s hi)
      obtain ⟨st', heq, hinv', hout, hmut⟩ :=
        ih (A ++ [s]) C (st.setValue s (f ((st.nodes s).value)).1) nf hinv1
          (by simpa using Nat.lt_of_succ_lt_succ hf) hfail1
      refine ⟨st', hunf.trans heq, ?_, ?_, ?_⟩
      · rwa [show (A ++ [s]) ++ R2 ++ C = A ++ (s :: R2) ++ C by simp] at hinv'
      · intro j hj
        have hjs : j ≠ s := fun e => hj (e ▸ List.mem_cons_self s R2)
        have hjR2 : j ∉ R2 := fun e => hj (List.mem_cons_of_mem s e)
        rw [hout j hjR2, setValue_value]
        simp [if_neg hjs]
      · intro i hi
        rcases List.mem_cons.mp hi with his | hiR2
        · subst his
          rw [hout i hsR2, setValue_value]
          simp
        · have his : i ≠ s := fun e => hsR2 (e ▸ hiR2)
          rw [hmut i hiR2, setValue_value]
          simp [if_neg his]

/-- A `drainFilterNext` call over a range whose first passing slot is `c`
(after the all-failing front `skip`): yields `c`'s mutated value, removes
`c`, leaves `skip` in the chain with written-back values, and advances the
iterator past `c`. -/
theorem dfNext_pass (f : T → T × Bool) :
    ∀ (skip : List Nat) (c : Nat) (R2 A C : List Nat) (st : VecList T)
      (nf : Nat),
      st.ChainInv (A ++ (skip ++ c :: R2) ++ C) →
      (skip ++ c :: R2).length < nf →
      (∀ i ∈ skip, passIdx f st i = false) →
      passIdx f st c = true →
      ∃ st', drainFilterNext f nf st (endsOf (skip ++ c :: R2)) =
          (some ((f ((st.nodes c).value)).1), st', endsOf R2) ∧
        st'.ChainInv ((A ++ skip) ++ R2 ++ C) ∧
        (∀ j, j ∉ skip ++ c :: R2 →
          (st'.nodes j).value = (st.nodes j).value) ∧
        (∀ i ∈ skip, (st'.nodes i).value = (f ((st.nodes i).value)).1) ∧
        (∀ i ∈ R2, (st'.nodes i).value = (st.nodes i).value) := by
  intro skip
  induction skip with
  | nil =>
    intro c R2 A C st nf h hf _ hpc
    match nf, hf with
    | nf + 1, hf =>
      have hfc : (f ((st.nodes c).value)).2 = true := hpc
      have hndR : (c :: R2).Nodup := by
        have := nodup_middle_of_append A _ C h.1.1
        simpa using this
      have hcR2 : c ∉ R2 := (List.nodup_cons.mp hndR).1
      have h' : st.ChainInv (A ++ (c :: R2) ++ C) := by simpa using h
      have hinv1 : (st.setValue c (f ((st.nodes c).value)).1).ChainInv
          (A ++ (c :: R2) ++ C) := (st.chainInv_setValue c _ _).mpr h'
      obtain ⟨htrip, hinv', hvals'⟩ :=
        (st.setValue c (f ((st.nodes c).value)).1).drainNext_step A C c R2 hinv1
      obtain ⟨t0, hde, _⟩ := st.advance_spec A C c R2 h'.1
      have hbridge : drainFilterNext f (nf + 1) st (endsOf (c :: R2)) =
          (st.setValue c (f ((st.nodes c).value)).1).drainNext
            (endsOf (c :: R2)) := by
        rw [hde]
        simp only [drainFilterNext, drainNext, hfc, if_true]
      have hv1 : ((st.setValue c (f ((st.nodes c).value)).1).nodes c).value =
          (f ((st.nodes c).value)).1 := by
        rw [setValue_value]
        simp
      refine ⟨(((st.setValue c (f ((st.nodes c).value)).1).patchEnds c).remove_node
        c).2, ?_, ?_, ?_, ?_, ?_⟩
      · show drainFilterNext f (nf + 1) st (endsOf ([] ++ c :: R2)) = _
        rw [List.nil_append, hbridge, htrip, hv1]
      · simpa using hinv'
      · intro j hj
        have hjc : j ≠ c := fun e => hj (by simp [e])
        rw [hvals' j, setValue_value]
        simp [if_neg hjc]
      · intro i hi
        exact absurd hi (List.not_mem_nil i)
      · intro i hi
        have hic : i ≠ c := fun e => hcR2 (e ▸ hi)
        rw [hvals' i, setValue_value]
        simp [if_neg hic]
  | cons s skip2 ih =>
    intro c R2 A C st nf h hf hfail hpc
    match nf, hf with
    | nf + 1, hf =>
      have hR : (s :: skip2) ++ c :: R2 = s :: (skip2 ++ c :: R2) := rfl
      have hfs : (f ((st.nodes s).value)).2 = false :=
        hfail s (List.mem_cons_self s skip2)
      have hndR : (s :: (skip2 ++ c :: R2)).Nodup := by
        have := nodup_middle_of_append A _ C h.1.1
        rwa [hR] at this
      have hsRest : s ∉ skip2 ++ c :: R2 := (List.nodup_cons.mp hndR).1
      have h' : st.ChainInv (A ++ (s :: (skip2 ++ c :: R2)) ++ C) := by
        rwa [hR] at h
      obtain ⟨t0, hde, hadv⟩ := st.advance_spec A C s (skip2 ++ c :: R2) h'.1
      have hinv1 : (st.setValue s (f ((st.nodes s).value)).1).ChainInv
          ((A ++ [s]) ++ (skip2 ++ c :: R2) ++ C) := by
        rw [show (A ++ [s]) ++ (skip2 ++ c :: R2) ++ C =
          A ++ (s :: (skip2 ++ c :: R2)) ++ C by simp]
        exact (st.chainInv_setValue s _ _).mpr h'
      have hde2 : (if s = t0 then none
          else (((st.setValue s (f ((st.nodes s).value)).1).nodes s).next).map
            fun nx => (nx, t0)) = endsOf (skip2 ++ c :: R2) := by
        rw [setValue_next]
        exact hadv
      have hunf : drainFilterNext f (nf + 1) st (endsOf (s :: (skip2 ++ c :: R2))) =
          drainFilterNext f nf (st.setValue s (f ((st.nodes s).value)).1)
            (endsOf (skip2 ++ c :: R2)) := by
        rw [hde]
        simp only [drainFilterNext, hfs, Bool.false_eq_true, if_false, hde2]
      have hcs : c ≠ s := by
        intro e
        exact hsRest (e ▸ List.mem_append.mpr (Or.inr (List.mem_cons_self c R2)))
      have hfail1 : ∀ i ∈ skip2,
          passIdx f (st.setValue s (f ((st.nodes s).value)).1) i = false := by
        intro i hi
        have his : i ≠ s := fun e =>
          hsRest (e ▸ List.mem_append.mpr (Or.inl hi))
        unfold passIdx
        rw [setValue_value]
        simp only [if_neg his]
        exact hfail i (List.mem_cons_of_mem s hi)
      have hpc1 : passIdx f (st.setValue s (f ((st.nodes s).value)).1) c = true := by
        unfold passIdx
        rw [setValue_value]
        simp only [if_neg hcs]
        exact hpc
      obtain ⟨st', heq, hinv', hout, hskipv, hR2v⟩ :=
        ih c R2 (A ++ [s]) C (st.setValue s (f ((st.nodes s).value)).1) nf hinv1
          (by simpa using Nat.lt_of_succ_lt_succ (by simpa [hR] using hf))
          hfail1 hpc1
      have hvc : (f (((st.setValue s (f ((st.nodes s).value)).1).nodes c).value)).1 =
          (f ((st.nodes c).value)).1 := by
        rw [setValue_value]
        simp [if_neg hcs]
      refine ⟨st', ?_, ?_, ?_, ?_, ?_⟩
      · rw [hR, hunf, heq, hvc]
      · rwa [show ((A ++ [s]) ++ skip2) ++ R2 ++ C =
          (A ++ s :: skip2) ++ R2 ++ C by simp] at hinv'
      · intro j hj
        rw [hR] at hj
        have hjs : j ≠ s := fun e => hj (e ▸ List.mem_cons_self s _)
        have hjR : j ∉ skip2 ++ c :: R2 := fun e => hj (List.mem_cons_of_mem s e)
        rw [hout j hjR, setValue_value]
        simp [if_neg hjs]
      · intro i hi
        rcases List.mem_cons.mp hi with his | hi2
        · subst his
          rw [hout i hsRest, setValue_value]
          simp
        · have his : i ≠ s := fun e =>
            hsRest (e ▸ List.mem_append.mpr (Or.inl hi2))
          rw [hskipv i hi2, setValue_value]
          simp [if_neg his]
      · intro i hi
        have his : i ≠ s := fun e =>
          hsRest (e ▸ List.mem_append.mpr (Or.inr (List.mem_cons_of_mem c hi)))
        rw [hR2v i hi, setValue_value]
        simp [if_neg his]

theorem dfYields_congr (f : T → T × Bool) (st st' : VecList T) (R : List Nat)
    (h : ∀ i ∈ R, (st'.nodes i).value = (st.nodes i).value) :
    dfYields f st' R = dfYields f st R := by
  unfold dfYields
  exact List.filterMap_congr fun i hi => by rw [h i hi]

theorem dfKeep_congr (f : T → T × Bool) (st st' : VecList T) (R : List Nat)
    (h : ∀ i ∈ R, (st'.nodes i).value = (st.nodes i).value) :
    dfKeep f st' R = dfKeep f st R := by
  unfold dfKeep
  exact List.filter_congr fun i hi => by unfold passIdx; rw [h i hi]

theorem dfYields_allfail (f : T → T × Bool) (st : VecList T) (R : List Nat)
    (h : ∀ i ∈ R, passIdx f st i = false) : dfYields f st R = [] := by
  induction R with
  | nil => rfl
  | cons a R' ih =>
    have ha : (f ((st.nodes a).value)).2 = false := h a (List.mem_cons_self a R')
    unfold dfYields at *
    simp only [List.filterMap_cons, ha, Bool.false_eq_true, if_false]
    exact ih fun i hi => h i (List.mem_cons_of_mem a hi)

theorem dfKeep_allfail (f : T → T × Bool) (st : VecList T) (R : List Nat)
    (h : ∀ i ∈ R, passIdx f st i = false) : dfKeep f st R = R := by
  unfold dfKeep
  rw [List.filter_eq_self]
  intro i hi
  rw [h i hi]
  rfl

theorem dfYields_split (f : T → T × Bool) (st : VecList T) (skip : List Nat)
    (c : Nat) (R2 : List Nat) (hskip : ∀ i ∈ skip, passIdx f st i = false)
    (hc : passIdx f st c = true) :
    dfYields f st (skip ++ c :: R2) =
      (f ((st.nodes c).value)).1 :: dfYields f st R2 := by
  unfold dfYields
  rw [List.filterMap_append]
  have h1 : List.filterMap _ skip = ([] : List T) := dfYields_allfail f st skip hskip
  unfold dfYields at h1
  rw [h1, List.nil_append, List.filterMap_cons]
  have hc' : (f ((st.nodes c).value)).2 = true := hc
  simp only [hc', if_true]

theorem dfKeep_split (f : T → T × Bool) (st : VecList T) (skip : List Nat)
    (c : Nat) (R2 : List Nat) (hskip : ∀ i ∈ skip, passIdx f st i = false)
    (hc : passIdx f st c = true) :
    dfKeep f st (skip ++ c :: R2) = skip ++ dfKeep f st R2 := by
  unfold dfKeep
  rw [List.filter_append, List.filter_cons]
  have h1 := dfKeep_allfail f st skip hskip
  unfold dfKeep at h1
  rw [h1]
  simp only [hc, Bool.not_true, Bool.false_eq_true, if_false]

/-- Running a filtering drain to completion over the range `R`: it yields
exactly the mutated values of the slots whose element passes the predicate,
in traversal order; the chain keeps exactly the failing slots, in place,
with the predicate's write-backs stored; slots outside the range are
untouched. -/
theorem runDF_spec (f : T → T × Bool) :
    ∀ (n : Nat) (R A C : List Nat) (st : VecList T) (nf fuel : Nat),
      R.length ≤ n → st.ChainInv (A ++ R ++ C) → R.length < nf →
      R.length < fuel →
      (runDrainFilter f nf fuel st (endsOf R)).1 = dfYields f st R ∧
      ((runDrainFilter f nf fuel st (endsOf R)).2).ChainInv
        (A ++ dfKeep f st R ++ C) ∧
      (∀ j, j ∉ R →
        (((runDrainFilter f nf fuel st (endsOf R)).2).nodes j).value =
          (st.nodes j).value) ∧
      (∀ i ∈ R, passIdx f st i = false →
        (((runDrainFilter f nf fuel st (endsOf R)).2).nodes i).value =
          (f ((st.nodes i).value)).1) := by
  intro n
  induction n with
  | zero =>
    intro R A C st nf fuel hn h hnf hfuel
    have hR : R = [] := List.eq_nil_of_length_eq_zero (Nat.le_zero.mp hn)
    subst hR
    match nf, hnf, fuel, hfuel with
    | nf + 1, _, fuel + 1, _ =>
      refine ⟨rfl, ?_, fun j _ => rfl, fun i hi _ => absurd hi (List.not_mem_nil i)⟩
      exact h
  | succ n ih =>
    intro R A C st nf fuel hn h hnf hfuel
    rcases st.run_split f R with hall | ⟨skip, c, R2, hRsplit, hskip, hc⟩
    · -- the whole remaining range fails the predicate
      obtain ⟨st', heq, hinv', hout, hmut⟩ :=
        dfNext_allfail f R A C st nf h hnf hall
      match fuel, hfuel with
      | fuel + 1, _ =>
        have hrun1 : (runDrainFilter f nf (fuel + 1) st (endsOf R)).1 = [] := by
          simp only [runDrainFilter]
          rw [heq]
        have hrun2 : (runDrainFilter f nf (fuel + 1) st (endsOf R)).2 = st' := by
          simp only [runDrainFilter]
          rw [heq]
        refine ⟨?_, ?_, ?_, ?_⟩
        · rw [hrun1, dfYields_allfail f st R hall]
        · rw [hrun2, dfKeep_allfail f st R hall]
          exact hinv'
        · intro j hj
          rw [hrun2]
          exact hout j hj
        · intro i hi _
          rw [hrun2]
          exact hmut i hi
    · -- the range has a first passing slot c
      subst hRsplit
      have hndR : (skip ++ c :: R2).Nodup := nodup_middle_of_append A _ C h.1.1
      have hdisjR : skip.Disjoint (c :: R2) := (List.nodup_append.mp hndR).2.2
      have hcR2 : c ∉ R2 := by
        have := (List.nodup_append.mp hndR).2.1
        exact (List.nodup_cons.mp this).1
      obtain ⟨st', heq, hinv', hout, hskipv, hR2v⟩ :=
        dfNext_pass f skip c R2 A C st nf h hnf hskip hc
      match fuel, hfuel with
      | fuel + 1, hfuel =>
        have hlenR : (skip ++ c :: R2).length = skip.length + 1 + R2.length := by
          simp
          omega
        have hrun1 : (runDrainFilter f nf (fuel + 1) st
            (endsOf (skip ++ c :: R2))).1 =
            (f ((st.nodes c).value)).1 ::
              (runDrainFilter f nf fuel st' (endsOf R2)).1 := by
          simp only [runDrainFilter]
          rw [heq]
        have hrun2 : (runDrainFilter f nf (fuel + 1) st
            (endsOf (skip ++ c :: R2))).2 =
            (runDrainFilter f nf fuel st' (endsOf R2)).2 := by
          simp only [runDrainFilter]
          rw [heq]
        have hR2n : R2.length ≤ n := by
          rw [hlenR] at hn
          omega
        have hR2nf : R2.length < nf := by
          rw [hlenR] at hnf
          omega
        have hR2fuel : R2.length < fuel := by
          rw [hlenR] at hfuel
          omega
        obtain ⟨ihy, ihinv, ihout, ihmut⟩ :=
          ih R2 (A ++ skip) C st' nf fuel hR2n hinv' hR2nf hR2fuel
        refine ⟨?_, ?_, ?_, ?_⟩
        · rw [hrun1, ihy, dfYields_congr f st st' R2 hR2v,
            dfYields_split f st skip c R2 hskip hc]
        · rw [hrun2, dfKeep_split f st skip c R2 hskip hc]
          rw [dfKeep_congr f st st' R2 hR2v] at ihinv
          rwa [show (A ++ skip) ++ dfKeep f st R2 ++ C =
            A ++ (skip ++ dfKeep f st R2) ++ C by simp] at ihinv
        · intro j hj
          have hjR2 : j ∉ R2 := fun e =>
            hj (List.mem_append.mpr (Or.inr (List.mem_cons_of_mem c e)))
          rw [hrun2, ihout j hjR2, hout j hj]
        · intro i hi hif
          rw [hrun2]
          rcases List.mem_append.mp hi with hiskip | hicons
          · have hiR2 : i ∉ R2 := fun e =>
              hdisjR hiskip (List.mem_cons_of_mem c e)
            rw [ihout i hiR2, hskipv i hiskip]
          · rcases List.mem_cons.mp hicons with hic | hiR2
            · subst hic
              rw [hc] at hif
              cases hif
            · have hpf : passIdx f st' i = false := by
                unfold passIdx
                rw [hR2v i hiR2]
                exact hif
              rw [ihmut i hiR2 hpf, hR2v i hiR2]

/-- Positional lookup (`get_index`, modelled from the spec's `index_of`)
returns the slot at the requested logical position of the chain. -/
theorem get_index_spec (st : VecList T) (cs : List Nat) (hinv : st.ChainInv cs)
    (p : Nat) (hp : p < st.len) :
    st.get_index p = .ok (cs.getD p 0) := by
  obtain ⟨⟨hnd, hch, hhd, htl⟩, hends, hlen⟩ := hinv
  cases cs with
  | nil =>
    rw [hlen] at hp
    simp at hp
  | cons c0 rest =>
    have hp' : p < (c0 :: rest).length := by rwa [hlen] at hp
    obtain ⟨t0, ht0⟩ := Option.isSome_iff_exists.mp
      (List.getLast?_isSome.mpr (by simp : c0 :: rest ≠ ([] : List Nat)))
    have hends' : st.ends = some (c0, t0) := by
      rw [hends]
      unfold endsOf
      rw [ht0]
      rfl
    unfold get_index
    rw [hends']
    show (if p < st.len - p - 1 then walkE (fun i => (st.nodes i).next) c0 p
      else walkE (fun i => (st.nodes i).prev) t0 (st.len - p - 1)) =
      Except.ok ((c0 :: rest).getD p 0)
    by_cases hcase : p < st.len - p - 1
    · rw [if_pos hcase]
      exact walkE_chain _ _ (hch.imp fun a b hr => hr.1) p hp' c0 rfl
    · rw [if_neg hcase]
      have hb : st.len - p - 1 < (c0 :: rest).reverse.length := by
        rw [List.length_reverse, ← hlen]
        omega
      have hrev := walkE_chain (fun i => (st.nodes i).prev)
        (c0 :: rest).reverse
        (by
          rw [List.chain'_reverse]
          exact hch.imp fun a b hr => hr.2)
        (st.len - p - 1) hb t0
        (by rw [List.head?_reverse]; exact ht0)
      rw [hrev]
      congr 1
      rw [List.getD_eq_getElem?_getD, List.getD_eq_getElem?_getD,
        List.getElem?_reverse (by rw [List.length_reverse] at hb; exact hb)]
      have hidx : (c0 :: rest).length - 1 - (st.len - p - 1) = p := by
        rw [← hlen]
        omega
      rw [hidx]

end VecList

end NewDraft

namespace OldDraft

namespace VecList

variable {T : Type}

/-- Positional lookup with an out-of-bounds position fails with the
source's `assert!` message, whatever the state. -/
theorem get_node_oob (st : VecList T) (p : Nat) (hp : st.len ≤ p) :
    st.get_node p = .error "Invalid index" := by
  unfold get_node
  rw [if_pos]
  intro hand
  exact absurd hand.2 (Nat.not_lt.mpr hp)

/-- Positional lookup on a well-chained state returns the slot at the
requested logical position: `p` next-steps from the head when the head is
closer, `len - p - 1` prev-steps from the tail otherwise. -/
theorem get_node_spec (st : VecList T) (cs : List Nat) (h : st.Chained cs)
    (p : Nat) (hp : p < st.len) :
    st.get_node p = .ok (cs.getD p 0) := by
  obtain ⟨hnd, hch, hhd, htl, hlen⟩ := h
  cases cs with
  | nil =>
    rw [hlen] at hp
    simp at hp
  | cons c0 rest =>
    have hp' : p < (c0 :: rest).length := by rwa [hlen] at hp
    obtain ⟨t0, ht0⟩ := Option.isSome_iff_exists.mp
      (List.getLast?_isSome.mpr (by simp : c0 :: rest ≠ ([] : List Nat)))
    have hhd' : st.head = some c0 := by rw [hhd]; rfl
    have htl' : st.tail = some t0 := by rw [htl, ht0]
    unfold get_node
    rw [if_neg]
    · by_cases hcase : p < st.len - p - 1
      · rw [if_pos hcase, hhd']
        exact walkE_chain _ _ (hch.imp fun a b hr => hr.1) p hp' c0 rfl
      · rw [if_neg hcase, htl']
        show walkE (fun i => (st.nodes i).prev) t0 (st.len - p - 1) =
          Except.ok ((c0 :: rest).getD p 0)
        have hb : st.len - p - 1 < (c0 :: rest).reverse.length := by
          rw [List.length_reverse, ← hlen]
          omega
        have hrev := walkE_chain (fun i => (st.nodes i).prev)
          (c0 :: rest).reverse
          (by
            rw [List.chain'_reverse]
            exact hch.imp fun a b hr => hr.2)
          (st.len - p - 1) hb t0
          (by rw [List.head?_reverse]; exact ht0)
        rw [hrev]
        congr 1
        rw [List.getD_eq_getElem?_getD, List.getD_eq_getElem?_getD,
          List.getElem?_reverse (by rw [List.length_reverse] at hb; exact hb)]
        have hidx : (c0 :: rest).length - 1 - (st.len - p - 1) = p := by
          rw [← hlen]
          omega
        rw [hidx]
    · intro hneg
      apply hneg
      constructor
      · unfold is_empty
        rw [hhd']
        simp
      · exact hp

end VecList

end OldDraft

/-! ## Claim theorems -/

/-- C4: the claim says the head/tail ends are `None` iff the length is 0
before and after every operation, with `is_empty()` agreeing with
`len() == 0`.  The code violates it: `pop_front`/`pop_back` never clear the
new boundary node's back-link, so after
`push_front(7); push_front(8); pop_back(); pop_front()` the final
`pop_front` follows the stale `next` link of the old head and leaves
`head = Some(slot 0)` while `len = 0`: `is_empty()` reports `false` on a
length-0 list and the head end is not `None`. -/
theorem pops_leave_stale_head_end :
    OldDraft.staleHeadState.len = 0 ∧
    OldDraft.staleHeadState.head = some 0 ∧
    OldDraft.staleHeadState.tail = none ∧
    OldDraft.staleHeadState.is_empty = false := by
  decide

/-- C5: the claim says any interleaving of pushes and pops keeps `len()`
at net pushes minus pops with `front()`/`back()` the correct boundary
elements.  The length bookkeeping and the pop return values are right on
this trace (`pop_front` returns 7, `pop_back` returns 8, `len` ends at
`2 - 2 = 0`), but the final `pop_back` follows the stale `prev` link left
on the new head by `pop_front`, so the empty list reports
`back() = Some(7)` instead of no value. -/
theorem push_pop_back_on_empty_list :
    ((((OldDraft.VecList.newList : OldDraft.VecList Nat).push_back 7).push_back
      8).pop_front.1 = some 7) ∧
    (((((OldDraft.VecList.newList : OldDraft.VecList Nat).push_back 7).push_back
      8).pop_front.2).pop_back.1 = some 8) ∧
    OldDraft.staleTailState.len = 0 ∧
    OldDraft.staleTailState.front = none ∧
    OldDraft.staleTailState.back = some 7 ∧
    OldDraft.staleTailState.tail = some 0 := by
  decide

/-- C2: the claim says that after `shrink_to_fit()` the number of slots
ever allocated equals the list's length and no slot `≥ length` is
referenced by the active chain.  The code (src/lib.rs:287-288) only
delegates to `Vec::shrink_to_fit`: after three pushes and one `pop_front`,
`node_count` stays 3 against `len = 2`, the capacity is released down to 3
(not 2), and the chain still references slot 2 `≥ len`. -/
theorem shrink_to_fit_releases_capacity_without_compaction :
    OldDraft.shrinkState.node_count = 3 ∧
    OldDraft.shrinkState.len = 2 ∧
    OldDraft.shrinkState.node_count ≠ OldDraft.shrinkState.len ∧
    OldDraft.shrinkState.cap = 3 ∧
    OldDraft.shrinkState.head = some 1 ∧
    (OldDraft.shrinkState.nodes 1).next = some 2 := by
  decide

/-- C6: the claim says `remove_before`/`remove_after` update the stored
ends when the removed neighbor was the list's head (resp. tail), making the
view's slot the new boundary.  The removal and returned value are right,
and the no-neighbor case is a no-op, but the ends update is dead code: the
source assigns into a by-value copy (`list.ends.expect(..).0 = self.view`),
so after `pop_before` on a view at slot 1 of `[10, 20]` the stored ends
remain `(0, 1)` with slot 0 already on the free list (the claim requires
head `= 1`); symmetrically for `pop_after`. -/
theorem view_pop_neighbor_ends_not_updated :
    ((NewDraft.viewPair.popBefore 1).toOption.map fun r => r.1) =
      some (some 10) ∧
    ((NewDraft.viewPair.popBefore 1).toOption.map fun r => r.2.ends) =
      some (some (0, 1)) ∧
    ((NewDraft.viewPair.popBefore 1).toOption.map fun r => r.2.free) =
      some (some 0) ∧
    ((NewDraft.viewPair.popBefore 1).toOption.map fun r => r.2.len) = some 1 ∧
    ((NewDraft.viewPair.popAfter 0).toOption.map fun r => r.1) =
      some (some 20) ∧
    ((NewDraft.viewPair.popAfter 0).toOption.map fun r => r.2.ends) =
      some (some (0, 1)) ∧
    ((NewDraft.viewPair.popAfter 0).toOption.map fun r => r.2.free) =
      some (some 1) ∧
    ((NewDraft.viewPair.popBefore 0).toOption.map fun r =>
      (r.1, r.2.ends, r.2.len, r.2.free)) =
      some (none, some (0, 1), 2, none) := by
  decide

/-- C1: for every list state whose chain splits as `A ++ R ++ C` and a
drain holding the resolved range `R` (its ends are `R`'s first and last
slots), stepping the drain any number `k` of times and then destroying it
(`Drop` drives iteration to completion) removes exactly the slots of `R`
from the chain: the final state's chain is `A ++ C` — every element outside
the range, in its original relative order — with every stored value
untouched, and the list's ends/length bookkeeping updated.  A closed
conjunct checks a backward step (`next_back`) before destruction on the
canonical list `[5,6,7,8]` draining slots `[1,2]`: the remaining chain is
`[0, 3]` holding `[5, 8]`. -/
theorem drain_drop_removes_resolved_range (T : Type) (st : NewDraft.VecList T)
    (A R C : List Nat) (k : Nat) (h : st.ChainInv (A ++ R ++ C)) :
    ((NewDraft.VecList.dropDrain
      (NewDraft.VecList.stepDrain k (st, NewDraft.VecList.endsOf R))).ChainInv
        (A ++ C) ∧
      ∀ j, ((NewDraft.VecList.dropDrain
        (NewDraft.VecList.stepDrain k (st, NewDraft.VecList.endsOf R))).nodes
          j).value = (st.nodes j).value) ∧
    ((NewDraft.VecList.dropDrain
      (NewDraft.VecList.stepDrainBack 1
        ((NewDraft.canonical [5, 6, 7, 8] : NewDraft.VecList Nat),
          NewDraft.VecList.endsOf [1, 2]))).ChainInv ([0] ++ [3]) ∧
      NewDraft.VecList.chainValues
        (NewDraft.VecList.dropDrain
          (NewDraft.VecList.stepDrainBack 1
            ((NewDraft.canonical [5, 6, 7, 8] : NewDraft.VecList Nat),
              NewDraft.VecList.endsOf [1, 2]))) ([0] ++ [3]) = [5, 8]) := by
  constructor
  · exact NewDraft.VecList.stepDrain_drop k R A C st h
  · constructor
    · decide
    · decide

/-- Witness for C1 at the canonical list `[5,6,7,8]`, draining slots
`[1,2]` after one forward step. -/
theorem drain_drop_removes_resolved_range_witness :
    (NewDraft.canonical [5, 6, 7, 8] : NewDraft.VecList Nat).ChainInv
      ([0] ++ [1, 2] ++ [3]) ∧
    ((NewDraft.VecList.dropDrain
      (NewDraft.VecList.stepDrain 1
        ((NewDraft.canonical [5, 6, 7, 8] : NewDraft.VecList Nat),
          NewDraft.VecList.endsOf [1, 2]))).ChainInv ([0] ++ [3]) ∧
      ∀ j, ((NewDraft.VecList.dropDrain
        (NewDraft.VecList.stepDrain 1
          ((NewDraft.canonical [5, 6, 7, 8] : NewDraft.VecList Nat),
            NewDraft.VecList.endsOf [1, 2]))).nodes j).value =
        ((NewDraft.canonical [5, 6, 7, 8] : NewDraft.VecList Nat).nodes
          j).value) :=
  ⟨by decide,
    (drain_drop_removes_resolved_range Nat (NewDraft.canonical [5, 6, 7, 8])
      [0] [1, 2] [3] 1 (by decide)).1⟩

/-- C7: each forward step of the filtering drain applies the (mutating)
predicate to the element at the current edge; passing elements are
unlinked, deallocated and yielded in traversal order, failing elements stay
in place — at their original position, keeping the predicate's mutation —
and slots outside the captured range are untouched.  The closed conjuncts
run the repository's own scenario: on `[0,1,2,3]` with the predicate
"increment, then test even", the forward filtering drain (whose
construction snapshots the whole chain, `ends`) yields `[2, 4]` and leaves
the chain `[1, 3]`; stepping backward instead yields `[4, 2]` with the same
remaining list. -/
theorem drain_filter_semantics (T : Type) (f : T → T × Bool)
    (st : NewDraft.VecList T) (A R C : List Nat)
    (h : st.ChainInv (A ++ R ++ C)) :
    ((NewDraft.VecList.runDrainFilter f (R.length + 1) (R.length + 1) st
        (NewDraft.VecList.endsOf R)).1 = NewDraft.VecList.dfYields f st R ∧
      ((NewDraft.VecList.runDrainFilter f (R.length + 1) (R.length + 1) st
        (NewDraft.VecList.endsOf R)).2).ChainInv
        (A ++ NewDraft.VecList.dfKeep f st R ++ C) ∧
      (∀ j, j ∉ R →
        (((NewDraft.VecList.runDrainFilter f (R.length + 1) (R.length + 1) st
          (NewDraft.VecList.endsOf R)).2).nodes j).value =
          (st.nodes j).value) ∧
      (∀ i ∈ R, NewDraft.VecList.passIdx f st i = false →
        (((NewDraft.VecList.runDrainFilter f (R.length + 1) (R.length + 1) st
          (NewDraft.VecList.endsOf R)).2).nodes i).value =
          (f ((st.nodes i).value)).1)) ∧
    ((NewDraft.VecList.runDrainFilter (fun v => (v + 1, (v + 1) % 2 == 0)) 5 5
        (NewDraft.canonical [0, 1, 2, 3] : NewDraft.VecList Nat)
        (NewDraft.canonical [0, 1, 2, 3] : NewDraft.VecList Nat).ends).1 =
        [2, 4] ∧
      ((NewDraft.VecList.runDrainFilter (fun v => (v + 1, (v + 1) % 2 == 0)) 5 5
        (NewDraft.canonical [0, 1, 2, 3] : NewDraft.VecList Nat)
        (NewDraft.canonical [0, 1, 2, 3] : NewDraft.VecList Nat).ends).2).ChainInv
        [0, 2] ∧
      NewDraft.VecList.chainValues
        ((NewDraft.VecList.runDrainFilter (fun v => (v + 1, (v + 1) % 2 == 0)) 5 5
          (NewDraft.canonical [0, 1, 2, 3] : NewDraft.VecList Nat)
          (NewDraft.canonical [0, 1, 2, 3] : NewDraft.VecList Nat).ends).2)
        [0, 2] = [1, 3] ∧
      (NewDraft.VecList.runDrainFilterBack (fun v => (v + 1, (v + 1) % 2 == 0)) 5 5
        (NewDraft.canonical [0, 1, 2, 3] : NewDraft.VecList Nat)
        (NewDraft.canonical [0, 1, 2, 3] : NewDraft.VecList Nat).ends).1 =
        [4, 2] ∧
      ((NewDraft.VecList.runDrainFilterBack (fun v => (v + 1, (v + 1) % 2 == 0)) 5 5
        (NewDraft.canonical [0, 1, 2, 3] : NewDraft.VecList Nat)
        (NewDraft.canonical [0, 1, 2, 3] : NewDraft.VecList Nat).ends).2).ChainInv
        [0, 2] ∧
      NewDraft.VecList.chainValues
        ((NewDraft.VecList.runDrainFilterBack (fun v => (v + 1, (v + 1) % 2 == 0)) 5 5
          (NewDraft.canonical [0, 1, 2, 3] : NewDraft.VecList Nat)
          (NewDraft.canonical [0, 1, 2, 3] : NewDraft.VecList Nat).ends).2)
        [0, 2] = [1, 3]) := by
  constructor
  · exact NewDraft.VecList.runDF_spec f R.length R A C st (R.length + 1)
      (R.length + 1) (Nat.le_refl _) h (Nat.lt_succ_self _) (Nat.lt_succ_self _)
  · exact ⟨by decide, by decide, by decide, by decide, by decide, by decide⟩

/-- Witness for C7: the general statement applied to the canonical list
`[0,1,2,3]` with the scenario predicate, whole chain captured. -/
theorem drain_filter_semantics_witness :
    (NewDraft.canonical [0, 1, 2, 3] : NewDraft.VecList Nat).ChainInv
      ([] ++ [0, 1, 2, 3] ++ []) ∧
    (NewDraft.VecList.runDrainFilter (fun v => (v + 1, (v + 1) % 2 == 0)) 5 5
      (NewDraft.canonical [0, 1, 2, 3] : NewDraft.VecList Nat)
      (NewDraft.VecList.endsOf [0, 1, 2, 3])).1 =
      NewDraft.VecList.dfYields (fun v => (v + 1, (v + 1) % 2 == 0))
        (NewDraft.canonical [0, 1, 2, 3] : NewDraft.VecList Nat) [0, 1, 2, 3] :=
  ⟨by decide,
    ((drain_filter_semantics Nat (fun v => (v + 1, (v + 1) % 2 == 0))
      (NewDraft.canonical [0, 1, 2, 3]) [] [0, 1, 2, 3] [] (by decide)).1).1⟩

/-- C8: positional lookup `get_node` fails fatally with the out-of-range
`assert!` exactly when `position ≥ length` (the failure needs no
assumptions on the state; success holds on any well-chained state), and
otherwise walks from whichever end is closer — by definition, `position`
successor steps from the head when `position < len - position - 1`, and
`len - position - 1` predecessor steps from the tail otherwise — returning
the slot at logical position `position` of the chain. -/
theorem get_node_positional_lookup (T : Type) (st : OldDraft.VecList T)
    (cs : List Nat) (h : st.Chained cs) (p : Nat) :
    (st.len ≤ p → st.get_node p = .error "Invalid index") ∧
    (p < st.len → st.get_node p = .ok (cs.getD p 0)) := by
  constructor
  · intro hp
    exact st.get_node_oob p hp
  · intro hp
    exact st.get_node_spec cs h p hp

/-- Witness for C8 on the list `[1, 2, 3]` (slots `[0, 1, 2]`): position 2
resolves to slot 2, position 5 is rejected. -/
theorem get_node_positional_lookup_witness :
    OldDraft.listThree.Chained [0, 1, 2] ∧
    OldDraft.listThree.get_node 2 = .ok 2 ∧
    OldDraft.listThree.get_node 5 = .error "Invalid index" :=
  ⟨by decide,
    (get_node_positional_lookup Nat OldDraft.listThree [0, 1, 2]
      (by decide) 2).2 (by decide),
    (get_node_positional_lookup Nat OldDraft.listThree [0, 1, 2]
      (by decide) 5).1 (by decide)⟩

/-- Counterexample to C9: `reserve` does not count cached free slots
against the request — on a full 2-slot buffer with one cached free slot,
`reserve(1)` grows the buffer (to 4) although the claim implies the free
slot covers the request (capacity staying 2, as the spec-worded
`reserveClaimed` computes); and `RawVec::reserve_exact` grows `cap 10,
used 8` by 5 to 15, not to the precise requirement `8 + 5 = 13`. -/
theorem reserve_counts_free_slots_counterexample :
    OldDraft.reserveState.cached = 1 ∧
    OldDraft.reserveState.cap = 2 ∧
    (OldDraft.reserveState.reserve 1).cap = 4 ∧
    (OldDraft.reserveState.reserveClaimed 1).cap = 2 ∧
    (OldDraft.reserveState.reserve 1).cap ≠
      (OldDraft.reserveState.reserveClaimed 1).cap ∧
    RawVec.reserve_exact 10 8 5 = 15 ∧
    RawVec.reserve_exact 10 8 5 ≠ 8 + 5 := by
  decide

/-- C9 as amended: `reserve`/`reserve_exact` pass the request straight to
the backing buffer without consulting the cached free slots (the capacity
outcome is independent of the cache field); growth happens exactly when
`node_count + n` exceeds the capacity; when it does, the lib's
`reserve_exact` grows to exactly `node_count + n` while `reserve` grows to
at least it (doubling may over-allocate); `RawVec::reserve_exact` grows to
`cap + additional`, which covers but can exceed `used + additional`, and
neither `RawVec` variant grows when the used capacity plus the request
already fits. -/
theorem reserve_passthrough_amended (T : Type) (st : OldDraft.VecList T)
    (n : Nat) (hc : st.node_count ≤ st.cap) :
    ((st.reserve n).cap = st.cap ↔ st.node_count + n ≤ st.cap) ∧
    st.node_count + n ≤ (st.reserve n).cap ∧
    (st.cap < st.node_count + n →
      (st.reserve_exact n).cap = st.node_count + n) ∧
    (∀ c, (OldDraft.VecList.reserve { st with cache := c } n).cap =
      (st.reserve n).cap) ∧
    (∀ cap used a, used ≤ cap → cap < used + a →
      RawVec.reserve_exact cap used a = cap + a ∧ used + a ≤ cap + a) ∧
    (∀ cap used a, used + a ≤ cap →
      RawVec.reserve_exact cap used a = cap ∧ RawVec.reserve cap used a = cap) := by
  refine ⟨?_, ?_, ?_, ?_, ?_, ?_⟩
  · show (if st.node_count + n ≤ st.cap then st.cap
      else max (2 * st.cap) (st.node_count + n)) = st.cap ↔
      st.node_count + n ≤ st.cap
    split_ifs with hcond
    · simpa using hcond
    · have h1 : st.node_count + n ≤ max (2 * st.cap) (st.node_count + n) :=
        Nat.le_max_right _ _
      constructor
      · intro heq
        omega
      · intro hle
        exact absurd hle hcond
  · show st.node_count + n ≤ if st.node_count + n ≤ st.cap then st.cap
      else max (2 * st.cap) (st.node_count + n)
    split_ifs with hcond
    · exact hcond
    · exact Nat.le_max_right _ _
  · intro hlt
    show (if st.node_count + n ≤ st.cap then st.cap
      else st.node_count + n) = st.node_count + n
    rw [if_neg (by omega)]
  · intro c
    rfl
  · intro cap used a hle hlt
    unfold RawVec.reserve_exact
    rw [if_pos hlt]
    omega
  · intro cap used a hle
    unfold RawVec.reserve_exact RawVec.reserve
    rw [if_neg (by omega), if_neg (by omega)]
    exact ⟨rfl, rfl⟩

/-- Witness for the amended C9 at the concrete one-cached-slot state. -/
theorem reserve_passthrough_amended_witness :
    OldDraft.reserveState.node_count ≤ OldDraft.reserveState.cap ∧
    ((OldDraft.reserveState.reserve 3).cap = OldDraft.reserveState.cap ↔
      OldDraft.reserveState.node_count + 3 ≤ OldDraft.reserveState.cap) :=
  ⟨by decide,
    (reserve_passthrough_amended Nat OldDraft.reserveState 3 (by decide)).1⟩

/-- C10: `append` computes the number of slots to reserve as
`other.len() - self.cached()`, an unsigned subtraction that is only defined
when the cache is no larger than `other`: it fails (debug-build overflow
panic) exactly when the destination's free cache holds more nodes than
`other` has elements, and such states are reachable — two pushes followed
by two pops leave two cached nodes, and appending a one-element list then
underflows. -/
theorem append_reserve_underflow :
    (∀ (T : Type) (st other : OldDraft.VecList T),
      OldDraft.VecList.appendReserve st other = none ↔
        other.len < st.cached) ∧
    OldDraft.cacheTwoState.cached = 2 ∧
    OldDraft.oneList.len = 1 ∧
    OldDraft.VecList.appendReserve OldDraft.cacheTwoState OldDraft.oneList =
      none := by
  refine ⟨?_, by decide, by decide, by decide⟩
  intro T st other
  unfold OldDraft.VecList.appendReserve
  split_ifs with hcond
  · have : ¬(other.len < st.cached) := Nat.not_lt.mpr hcond
    simp [this]
  · have : other.len < st.cached := Nat.not_le.mp hcond
    simp [this]

/-- C3: range resolution at drain construction.  The old draft's
`VecList::drain` (src/lib.rs:377-401) resolves an unbounded end bound to 0
— `Some(len).filter(|i| *i == 0).unwrap_or(0)` — so `drain(1..)` on
`[1, 2, 3]` panics ("Start point was greater than the end point"), against
its own doc example, and `drain(..)` resolves to the single position pair
`(0, 0)` instead of the whole list.  The newer `new_drain`
(src/iters/drain.rs) behaves as claimed: an unbounded end on a non-empty
list resolves to position `n - 1` (so `drain(s..)` on a well-chained state
resolves to the slots of positions `s..n-1` and destroying it leaves
exactly the first `s` elements), and out-of-order, out-of-bounds or
end-excluding-zero ranges are construction errors. -/
theorem drain_range_resolution_behavior :
    (OldDraft.listThree.drainResolve ⟨.included 1, .unbounded⟩ =
      .error "Start point was greater than the end point") ∧
    (OldDraft.listThree.drainResolve ⟨.unbounded, .unbounded⟩ =
      .ok (some (0, 0))) ∧
    (∀ n s, 0 < n → s < n →
      NewDraft.VecList.newDrainResolve n ⟨.included s, .unbounded⟩ =
        .ok (some (s, n - 1))) ∧
    (∀ n s e, e < s ∨ n ≤ e →
      ∃ msg, NewDraft.VecList.newDrainResolve n ⟨.included s, .included e⟩ =
        .error msg) ∧
    (∀ n s, NewDraft.VecList.newDrainResolve n ⟨.included s, .excluded 0⟩ =
      .error "attempt to subtract with overflow") ∧
    (∀ (T : Type) (st : NewDraft.VecList T) (cs : List Nat) (s : Nat),
      st.ChainInv cs → 0 < st.len → s < st.len →
      st.new_drain ⟨.included s, .unbounded⟩ =
        .ok (NewDraft.VecList.endsOf (List.drop s cs)) ∧
      (NewDraft.VecList.dropDrain
        (st, NewDraft.VecList.endsOf (List.drop s cs))).ChainInv
        (List.take s cs)) := by
  refine ⟨by decide, by decide, ?_, ?_, ?_, ?_⟩
  · intro n s h0 hs
    have h1 : s ≤ n - 1 := by omega
    have h2 : n - 1 < n := by omega
    have h3 : ¬(n ≤ n - 1) := by omega
    simp [NewDraft.VecList.newDrainResolve, Nat.not_lt.mpr h1, h0, h1, h2, h3,
      pure, Except.pure, bind, Except.bind]
  · intro n s e h
    rcases h with h1 | h2
    · have hns : ¬(s ≤ e) := by omega
      exact ⟨"The range must be acending",
        by simp [NewDraft.VecList.newDrainResolve, hns, h1]⟩
    · by_cases hse : s ≤ e
      · have hne : ¬(e < n) := by omega
        have hes : ¬(e < s) := by omega
        exact ⟨"The end of the range must be less than the length",
          by simp [NewDraft.VecList.newDrainResolve, hse, hne, hes, h2]⟩
      · exact ⟨"The range must be acending",
          by simp [NewDraft.VecList.newDrainResolve, hse,
            (by omega : e < s)]⟩
  · intro n s
    rfl
  · intro T st cs s hinv h0 hs
    have hn : st.len = cs.length := hinv.2.2
    have hslen : s < cs.length := by omega
    have hsplit : List.take s cs ++ List.drop s cs = cs :=
      List.take_append_drop s cs
    have hinv' : st.ChainInv (List.take s cs ++ List.drop s cs ++ []) := by
      rw [List.append_nil, hsplit]
      exact hinv
    have hdropne : List.drop s cs ≠ [] := by
      intro hd
      have hl : (List.drop s cs).length = cs.length - s := List.length_drop s cs
      rw [hd] at hl
      simp at hl
      omega
    have hlenpos : 0 < cs.length := by omega
    have hgetlast : cs.getLast? = some (cs.getD (st.len - 1) 0) := by
      have he1 : cs.getLast? = cs[cs.length - 1]? := List.getLast?_eq_getElem? cs
      have he2 : cs[cs.length - 1]? = some (cs.getD (cs.length - 1) 0) := by
        rw [List.getElem?_eq_getElem (by omega : cs.length - 1 < cs.length),
          List.getD_eq_getElem?_getD,
          List.getElem?_eq_getElem (by omega : cs.length - 1 < cs.length)]
        rfl
      rw [he1, he2, hn]
    have hhead : (List.drop s cs).head? = some (cs.getD s 0) := by
      rw [List.head?_drop, List.getElem?_eq_getElem hslen,
        List.getD_eq_getElem?_getD, List.getElem?_eq_getElem hslen]
      rfl
    have hlast : (List.drop s cs).getLast? = some (cs.getD (st.len - 1) 0) := by
      have hsame : (List.drop s cs).getLast? = cs.getLast? := by
        conv_rhs => rw [← hsplit]
        rw [List.getLast?_append_of_ne_nil _ hdropne]
      rw [hsame, hgetlast]
    have hends : NewDraft.VecList.endsOf (List.drop s cs) =
        some (cs.getD s 0, cs.getD (st.len - 1) 0) := by
      unfold NewDraft.VecList.endsOf
      rw [hhead, hlast]
    constructor
    · have hres : NewDraft.VecList.newDrainResolve st.len
          ⟨.included s, .unbounded⟩ = .ok (some (s, st.len - 1)) := by
        have h1 : s ≤ st.len - 1 := by omega
        have h2 : st.len - 1 < st.len := by omega
        have h3 : ¬(st.len ≤ st.len - 1) := by omega
        simp [NewDraft.VecList.newDrainResolve, Nat.not_lt.mpr h1, h0, h1, h2,
          h3, pure, Except.pure, bind, Except.bind]
      have hgi1 : st.get_index s = .ok (cs.getD s 0) :=
        st.get_index_spec cs hinv s hs
      have hgi2 : st.get_index (st.len - 1) = .ok (cs.getD (st.len - 1) 0) :=
        st.get_index_spec cs hinv (st.len - 1) (by omega)
      unfold NewDraft.VecList.new_drain
      rw [hends]
      simp [hres, hgi1, hgi2, bind, Except.bind, pure, Except.pure]
    · have := NewDraft.VecList.stepDrain_drop 0 (List.drop s cs)
        (List.take s cs) [] st hinv'
      have hres := this.1
      rwa [List.append_nil] at hres

/-- Witness for C3 at concrete inputs: `drain(1..)` on a 3-element list
resolves to positions `(1, 2)` in the newer draft, an out-of-order range is
rejected, and the full construction on the canonical `[1, 2, 3]` resolves
`1..` to the slot range of positions `1..2`. -/
theorem drain_range_resolution_behavior_witness :
    NewDraft.VecList.newDrainResolve 3 ⟨.included 1, .unbounded⟩ =
      .ok (some (1, 2)) ∧
    (∃ msg, NewDraft.VecList.newDrainResolve 3 ⟨.included 2, .included 1⟩ =
      .error msg) ∧
    (NewDraft.canonical [1, 2, 3] : NewDraft.VecList Nat).new_drain
      ⟨.included 1, .unbounded⟩ =
      .ok (NewDraft.VecList.endsOf (List.drop 1 [0, 1, 2])) :=
  ⟨drain_range_resolution_behavior.2.2.1 3 1 (by decide) (by decide),
    drain_range_resolution_behavior.2.2.2.1 3 2 1 (Or.inl (by decide)),
    (drain_range_resolution_behavior.2.2.2.2.2 Nat
      (NewDraft.canonical [1, 2, 3]) [0, 1, 2] 1 (by decide) (by decide)
      (by decide)).1⟩
